import Mathlib

/-!
Verification development for the OVC-Analysis repository.

The repository consists of three Python pipelines:
  * `article_info_extractor.py` — reads article PDFs, preprocesses their text
    (reference-section truncation, word capping), calls an external annotator,
    tolerantly parses its response and appends one row per article to a CSV table;
  * `article_info_network_generator.py` — reads the table and builds one
    bipartite article/entity graph per entity category;
  * `code/article_info_stat_generator.py` — reads the table and aggregates
    per-category entity frequency statistics.

Python text values are embedded as `List Char`; Python `int` as `Int` (with
Python slice semantics made explicit); Python exceptions as `Except`/`Option`
or as explicit control-flow where the source catches them.  Each definition
below is a direct translation of the corresponding source function; external
library calls (`json.loads`, `pandas` cell access, `list.sort`) are modelled
at their documented boundary behaviour.
-/

namespace OVC

/-- A Python string, embedded as its list of characters. -/
abbrev Tok := List Char

/-- Python's whitespace test for `str.strip` / `str.split` / `\s`:
space, tab, newline, carriage return (the rarer vertical-tab and form-feed
whitespace characters do not occur in any input considered here). -/
def isWs (c : Char) : Bool := c == ' ' || c == '\t' || c == '\n' || c == '\r'

/-- Drop trailing whitespace (the tail half of Python `str.strip` /
all of `str.rstrip`). -/
def dropTrailingWs : List Char → List Char
  | [] => []
  | c :: cs =>
    match dropTrailingWs cs with
    | [] => if isWs c then [] else [c]
    | r :: rs => c :: r :: rs

/-- Python `str.strip()`: drop leading and trailing whitespace. -/
def pyStrip (s : List Char) : List Char := dropTrailingWs (s.dropWhile isWs)

/-- Python `str.lower()` (ASCII, which covers all inputs considered here). -/
def lowerStr (s : Tok) : Tok := s.map Char.toLower

/-- Python `str.upper()` (ASCII, which covers all inputs considered here). -/
def upperStr (s : Tok) : Tok := s.map Char.toUpper

/-- Python `pat.isPrefixOf`-style test: does `p` start the string `s`? -/
def isPre : List Char → List Char → Bool
  | [], _ => true
  | _ :: _, [] => false
  | p :: ps, c :: cs => p == c && isPre ps cs

/-- Python `re.findall(r'\S+', text)`: the maximal runs of non-whitespace
characters of `text`, in order.  Also the value of Python `text.split()`. -/
def pyTokens : List Char → List (List Char)
  | [] => []
  | [c] => if isWs c then [] else [[c]]
  | c :: d :: cs =>
    if isWs c then pyTokens (d :: cs)
    else
      match pyTokens (d :: cs) with
      | [] => [[c]]
      | t :: ts => if isWs d then [c] :: t :: ts else (c :: t) :: ts

/-- Python `" ".join(parts)`. -/
def joinSp : List (List Char) → List Char
  | [] => []
  | [t] => t
  | t :: u :: ts => t ++ ' ' :: joinSp (u :: ts)

/-- Python `"\n".join(parts)`. -/
def joinNl : List (List Char) → List Char
  | [] => []
  | [t] => t
  | t :: u :: ts => t ++ '\n' :: joinNl (u :: ts)

/-- Python `re.sub(r"\s+", " ", t)`: collapse each maximal whitespace run
to a single space. -/
def collapseWs : List Char → List Char
  | [] => []
  | [c] => if isWs c then [' '] else [c]
  | c :: d :: cs =>
    if isWs c then
      if isWs d then collapseWs (d :: cs) else ' ' :: collapseWs (d :: cs)
    else c :: collapseWs (d :: cs)

/-- Python `str.splitlines()` for the line terminators `\n`, `\r` and `\r\n`
(the exotic unicode terminators do not occur in any input considered here). -/
def splitlines : List Char → List (List Char)
  | [] => []
  | c :: cs =>
    if c = '\n' then [] :: splitlines cs
    else if c = '\r' then
      match cs with
      | '\n' :: cs2 => [] :: splitlines cs2
      | [] => [[]]
      | d :: cs2 => [] :: splitlines (d :: cs2)
    else
      match splitlines cs with
      | [] => [[c]]
      | l :: ls => (c :: l) :: ls

/-!
### Text Preprocessor (`article_info_extractor.py`, lines 134–162)
-/

/-- The anchored regex `^\s*(references?|reference)\s*:?\s*$` of
`_REF_HEADING_RE`, applied case-insensitively to one line: optional
whitespace, the bare word `references` or `reference`, optional whitespace,
an optional colon, optional whitespace, end of line.  (The regex alternation
never needs backtracking here because the character after the matched word
must be whitespace or a colon, never the letter `s`.) -/
def isRefHeading (line : List Char) : Bool :=
  let t := lowerStr (line.dropWhile isWs)
  let rest? : Option (List Char) :=
    if isPre ("references".toList) t then some (t.drop 10)
    else if isPre ("reference".toList) t then some (t.drop 9)
    else none
  match rest? with
  | some r =>
    let r1 := r.dropWhile isWs
    let r2 := match r1 with
              | c :: rs => if c = ':' then rs else c :: rs
              | [] => []
    (r2.dropWhile isWs).isEmpty
  | none => false

/-- The search of `truncate_at_references`' loop: the lines strictly before
the first heading line, or `none` when no line matches. -/
def truncAux : List (List Char) → Option (List (List Char))
  | [] => none
  | l :: ls => if isRefHeading l then some [] else (truncAux ls).map (l :: ·)

/-- `truncate_at_references(text)` (`article_info_extractor.py` 136–145):
on the first heading line return `"\n".join(lines[:i]).rstrip()`, otherwise
return the text unchanged. -/
def truncate_at_references (text : List Char) : List Char :=
  match truncAux (splitlines text) with
  | some pre => dropTrailingWs (joinNl pre)
  | none => text

/-- `word_count(text)` (`article_info_extractor.py` 147–151):
`len(re.findall(r'\S+', text))`. -/
def word_count (text : List Char) : Nat := (pyTokens text).length

/-- Python's `list[:cap]` slice for an `int` cap: a nonnegative cap keeps the
first `cap` elements, a negative cap drops the last `-cap` elements
(clamped at the empty list). -/
def pySliceTo (l : List (List Char)) (cap : Int) : List (List Char) :=
  if 0 ≤ cap then l.take cap.toNat
  else l.take (l.length - (-cap).toNat)

/-- `cap_words(text, cap)` (`article_info_extractor.py` 153–162): return the
text unchanged when it has at most `cap` words, else the first `cap` words
(Python slice semantics) rejoined with single spaces. -/
def cap_words (text : List Char) (cap : Int) : List Char :=
  let tokens := pyTokens text
  if (tokens.length : Int) ≤ cap then text
  else joinSp (pySliceTo tokens cap)

/-!
### Characters written by code point

Quote, brace and backtick characters are referred to through named constants
so that every use is unambiguous.
-/

/-- The double-quote character `"`. -/
def quoteC : Char := Char.ofNat 34

/-- The single-quote character. -/
def squoteC : Char := Char.ofNat 39

/-- The backslash character. -/
def backslashC : Char := Char.ofNat 92

/-- The opening curly brace character. -/
def lbraceC : Char := Char.ofNat 123

/-- The closing curly brace character. -/
def rbraceC : Char := Char.ofNat 125

/-!
### JSON values and a model of `json.loads`

`clean_and_parse_json` delegates the actual JSON parsing to Python's `json`
module, an external library.  The model below implements the standard JSON
grammar (objects, arrays, strings with the usual escapes, numbers kept as
their raw source token, booleans, null); this is the boundary behaviour the
extractor relies on.
-/

/-- A JSON-representable Python value: `jobj` is a `dict` (insertion-ordered
key/value pairs), `jstr` a `str`, `jarr` a `list`, and so on.  Numbers keep
their raw source token. -/
inductive J where
  | jnull : J
  | jbool : Bool → J
  | jnum : List Char → J
  | jstr : List Char → J
  | jarr : List J → J
  | jobj : List (List Char × J) → J

/-- Decimal digit test. -/
def isDigit (c : Char) : Bool := '0' ≤ c && c ≤ '9'

/-- Value of a hexadecimal digit. -/
def hexVal (c : Char) : Option Nat :=
  if '0' ≤ c && c ≤ '9' then some (c.toNat - 48)
  else if 'a' ≤ c && c ≤ 'f' then some (c.toNat - 87)
  else if 'A' ≤ c && c ≤ 'F' then some (c.toNat - 55)
  else none

/-- Parse the body of a JSON string (after the opening quote), returning the
decoded characters and the input after the closing quote.  Handles the JSON
escapes including `\uXXXX` (surrogate pairs are out of scope here). -/
def parseStrBody : Nat → List Char → Option (List Char × List Char)
  | 0, _ => none
  | _ + 1, [] => none
  | fuel + 1, c :: rest =>
    if c = quoteC then some ([], rest)
    else if c = backslashC then
      match rest with
      | [] => none
      | e :: rest2 =>
        if e = 'u' then
          match rest2 with
          | h1 :: h2 :: h3 :: h4 :: rest3 =>
            match hexVal h1, hexVal h2, hexVal h3, hexVal h4 with
            | some a, some b, some c2, some d =>
              (parseStrBody fuel rest3).map fun p =>
                (Char.ofNat (((a * 16 + b) * 16 + c2) * 16 + d) :: p.1, p.2)
            | _, _, _, _ => none
          | _ => none
        else
          match (if e = quoteC then some quoteC
                 else if e = backslashC then some backslashC
                 else if e = '/' then some '/'
                 else if e = 'n' then some '\n'
                 else if e = 't' then some '\t'
                 else if e = 'r' then some '\r'
                 else if e = 'b' then some (Char.ofNat 8)
                 else if e = 'f' then some (Char.ofNat 12)
                 else none) with
          | some ch => (parseStrBody fuel rest2).map fun p => (ch :: p.1, p.2)
          | none => none
    else (parseStrBody fuel rest).map fun p => (c :: p.1, p.2)

/-- Parse an optional JSON fraction part. -/
def parseFracPart : List Char → Option (List Char × List Char)
  | [] => some ([], [])
  | c :: cs =>
    if c = '.' then
      let fs := cs.takeWhile isDigit
      if fs.isEmpty then none else some (c :: fs, cs.dropWhile isDigit)
    else some ([], c :: cs)

/-- Parse an optional JSON exponent part. -/
def parseExpPart : List Char → Option (List Char × List Char)
  | [] => some ([], [])
  | c :: cs =>
    if c = 'e' || c = 'E' then
      let p := match cs with
               | d :: ds => if d = '+' || d = '-' then ([d], ds) else (([] : List Char), d :: ds)
               | [] => ([], [])
      let es := p.2.takeWhile isDigit
      if es.isEmpty then none else some (c :: (p.1 ++ es), p.2.dropWhile isDigit)
    else some ([], c :: cs)

/-- Parse a JSON number, returning its raw token and the rest of the input. -/
def parseNum (s : List Char) : Option (List Char × List Char) :=
  let p := match s with
           | c :: cs => if c = '-' then (([c] : List Char), cs) else ([], c :: cs)
           | [] => ([], [])
  let ds := p.2.takeWhile isDigit
  if ds.isEmpty then none
  else
    match parseFracPart (p.2.dropWhile isDigit) with
    | none => none
    | some (fr, r2) =>
      match parseExpPart r2 with
      | none => none
      | some (ex, r3) => some (p.1 ++ ds ++ fr ++ ex, r3)

mutual

/-- Parse one JSON value, returning it and the unconsumed input. -/
def parseVal : Nat → List Char → Option (J × List Char)
  | 0, _ => none
  | fuel + 1, s0 =>
    match s0.dropWhile isWs with
    | [] => none
    | c :: cs =>
      if c = lbraceC then
        match cs.dropWhile isWs with
        | d :: ds =>
          if d = rbraceC then some (J.jobj [], ds)
          else (parseMembers fuel (d :: ds)).map fun p => (J.jobj p.1, p.2)
        | [] => none
      else if c = '[' then
        match cs.dropWhile isWs with
        | d :: ds =>
          if d = ']' then some (J.jarr [], ds)
          else (parseElems fuel (d :: ds)).map fun p => (J.jarr p.1, p.2)
        | [] => none
      else if c = quoteC then
        (parseStrBody (cs.length + 1) cs).map fun p => (J.jstr p.1, p.2)
      else if c = 't' then
        if isPre ("rue".toList) cs then some (J.jbool true, cs.drop 3) else none
      else if c = 'f' then
        if isPre ("alse".toList) cs then some (J.jbool false, cs.drop 4) else none
      else if c = 'n' then
        if isPre ("ull".toList) cs then some (J.jnull, cs.drop 3) else none
      else
        (parseNum (c :: cs)).map fun p => (J.jnum p.1, p.2)

/-- Parse the members of a JSON object after its opening brace (when the
object is not empty), up to and including the closing brace. -/
def parseMembers : Nat → List Char → Option (List (List Char × J) × List Char)
  | 0, _ => none
  | fuel + 1, s0 =>
    match s0.dropWhile isWs with
    | [] => none
    | c :: cs =>
      if c = quoteC then
        match parseStrBody (cs.length + 1) cs with
        | none => none
        | some (key, r1) =>
          match r1.dropWhile isWs with
          | ':' :: r2 =>
            match parseVal fuel r2 with
            | none => none
            | some (v, r3) =>
              match r3.dropWhile isWs with
              | ',' :: r4 => (parseMembers fuel r4).map fun p => ((key, v) :: p.1, p.2)
              | d :: ds => if d = rbraceC then some ([(key, v)], ds) else none
              | [] => none
          | _ => none
      else none

/-- Parse the elements of a JSON array after its opening bracket (when the
array is not empty), up to and including the closing bracket. -/
def parseElems : Nat → List Char → Option (List J × List Char)
  | 0, _ => none
  | fuel + 1, s0 =>
    match parseVal fuel s0 with
    | none => none
    | some (v, r1) =>
      match r1.dropWhile isWs with
      | ',' :: r2 => (parseElems fuel r2).map fun p => (v :: p.1, p.2)
      | ']' :: r2 => some ([v], r2)
      | _ => none

end

/-- Model of Python `json.loads`: parse a complete JSON document (trailing
whitespace permitted, anything else rejected); `none` when loading raises.
The fuel is generous: the parsers consume at least one character every two
recursion steps. -/
def jsonParse (s : List Char) : Option J :=
  match parseVal (2 * s.length + 4) s with
  | some (v, rest) => if (rest.dropWhile isWs).isEmpty then some v else none
  | none => none

/-- First index of an occurrence of the pattern `pat` in `s` (Python
`s.find(pat)` restricted to found/not-found as an `Option`). -/
def findSub (pat : List Char) : List Char → Option Nat
  | [] => if pat.isEmpty then some 0 else none
  | c :: rest => if isPre pat (c :: rest) then some 0 else (findSub pat rest).map (· + 1)

/-- Python `pat in s`. -/
def hasSub (pat s : List Char) : Bool := (findSub pat s).isSome

/-- Python `s.split(pat, 1)[-1]`. -/
def splitAfter (pat s : List Char) : List Char :=
  match findSub pat s with
  | some i => s.drop (i + pat.length)
  | none => s

/-- Python `s.split(pat, 1)[0]`. -/
def splitBefore (pat s : List Char) : List Char :=
  match findSub pat s with
  | some i => s.take i
  | none => s

/-- Python `s.find(c)` for a single character: first index or `-1`. -/
def pyFind (c : Char) (s : List Char) : Int :=
  match s.findIdx? (· == c) with
  | some i => (i : Int)
  | none => -1

/-- Python `s.rfind(c)` for a single character: last index or `-1`. -/
def pyRFind (c : Char) (s : List Char) : Int :=
  match s.reverse.findIdx? (· == c) with
  | some i => (s.length : Int) - 1 - (i : Int)
  | none => -1

/-- `clean_and_parse_json(raw)` (`article_info_extractor.py` 83–119).
A `dict` is returned as-is; a non-`str`, non-`dict` value is round-tripped
through `json.dumps`/`json.loads`, which is the identity on the
JSON-representable values modelled by `J`; a `str` is stripped, has one
leading code fence removed (preferring a ````json`-tagged fence), and is
parsed — directly first, then between the first opening and last closing
brace — with every failure caught, ending in an empty `dict`. -/
def clean_and_parse_json (raw : J) : J :=
  match raw with
  | J.jobj m => J.jobj m
  | J.jstr s0 =>
    let text0 := pyStrip s0
    let text :=
      if isPre ("```".toList) text0 then
        let t1 := if hasSub ("```json".toList) text0 then splitAfter ("```json".toList) text0
                  else splitAfter ("```".toList) text0
        pyStrip (splitBefore ("```".toList) t1)
      else text0
    match jsonParse text with
    | some v => v
    | none =>
      let start := pyFind lbraceC text
      let stop := pyRFind rbraceC text
      if start ≠ -1 ∧ stop ≠ -1 ∧ start < stop then
        match jsonParse ((text.drop start.toNat).take (stop.toNat - start.toNat + 1)) with
        | some v => v
        | none => J.jobj []
      else J.jobj []
  | other => other

/-!
### Extraction pipeline control flow (`article_info_extractor.py`, `main`)

`main` iterates over the input folder's documents; each iteration is wrapped
in a `try`/`except` that logs the error and continues with the next document.
Within one iteration the order of effects is: read the PDF text, preprocess
it (reference truncation, word counting, capping), write the preprocessed
Markdown file, call the annotator (`call_model`, which raises before any
network request when the API key is empty — line 196–198), and finally append
the row to the CSV table.  The trace below records those effects; per-document
failures other than the missing-credential one are outside this model.
-/

/-- An observable effect of the extraction pipeline, tagged with the
document's file name. -/
inductive Ev where
  | read : String → Ev
  | preprocessed : String → Ev
  | mdWritten : String → Ev
  | modelCalled : String → Ev
  | rowWritten : String → Ev
  | errorLogged : String → Ev
deriving DecidableEq

/-- One iteration of `main`'s per-document loop, given the configured API
key.  With an empty key, `call_model` raises after the Markdown file was
written and before the CSV row is appended; the exception is caught and
logged by the per-document handler. -/
def processDoc (apiKey : String) (d : String) : List Ev :=
  if apiKey = "" then [Ev.read d, Ev.preprocessed d, Ev.mdWritten d, Ev.errorLogged d]
  else [Ev.read d, Ev.preprocessed d, Ev.mdWritten d, Ev.modelCalled d, Ev.rowWritten d]

/-- The trace of `main` over the sorted list of PDF files of the input
folder. -/
def extractionTrace (apiKey : String) (docs : List String) : List Ev :=
  docs.flatMap (processDoc apiKey)

/-!
### Graph Builder (`article_info_network_generator.py`)
-/

/-- The separator class of `SPLIT_PATTERN = r"[,\;\|\n/]+"`. -/
def splitChar (c : Char) : Bool := c == ',' || c == ';' || c == '|' || c == '\n' || c == '/'

/-- `re.split` over a character class followed by `+`: split on maximal runs
of separators; an empty piece remains at an end when the string starts or
ends with a separator, but runs never produce internal empty pieces. -/
def splitRuns (sep : Char → Bool) : List Char → List (List Char)
  | [] => [[]]
  | [c] => if sep c then [[], []] else [[c]]
  | c :: d :: cs =>
    let rest := splitRuns sep (d :: cs)
    if sep c then
      if sep d then rest else [] :: rest
    else
      match rest with
      | r :: rs => (c :: r) :: rs
      | [] => [[c]]

/-- The per-part cleanup `" ".join(p.strip().split())` of
`parse_items_to_upper` (line 50): trim, collapse internal whitespace. -/
def normalizeWsPy (p : Tok) : Tok := joinSp (pyTokens (pyStrip p))

/-- One part's worth of the `parse_items_to_upper` loop (lines 49–56), on
the `(seen, items)` pair: normalize whitespace, skip empties, uppercase,
deduplicate keeping first occurrences. -/
def piuStep (acc : List Tok × List Tok) (p : Tok) : List Tok × List Tok :=
  let t := normalizeWsPy p
  if t.isEmpty then acc
  else
    let u := upperStr t
    if acc.1.contains u then acc else (u :: acc.1, acc.2 ++ [u])

/-- `parse_items_to_upper(value)` (`article_info_network_generator.py`
33–57): `None`/blank/`"nan"` to `[]`; split on the separator runs; per part
trim and collapse whitespace; skip empties; uppercase; deduplicate keeping
first occurrences. -/
def parse_items_to_upper (value : Option Tok) : List Tok :=
  match value with
  | none => []
  | some v =>
    let s := pyStrip v
    if s.isEmpty || lowerStr s == ("nan".toList) then []
    else ((splitRuns splitChar s).foldl piuStep ([], [])).2

/-- One table row as the Graph Builder sees it: the `Article Name` cell and
the entity-category cells, addressed by column name (`none` models a missing
value, which pandas reads as NaN). -/
structure Row where
  articleName : Option Tok
  cells : String → Option Tok

/-- Python `str(...)` on a pandas cell: a missing value (NaN) prints as
`"nan"`. -/
def pyStr (v : Option Tok) : Tok := v.getD ("nan".toList)

/-- A rendered network: nodes `(id, label)` and edges between node ids, in
insertion order. -/
structure Graph where
  nodes : List (Tok × Tok)
  edges : List (Tok × Tok)
deriving DecidableEq

/-- The in-progress build state: the `seen_nodes`/`seen_edges` dedup sets and
the network under construction. -/
structure GBuild where
  seenNodes : List Tok
  seenEdges : List (Tok × Tok)
  g : Graph

/-- The node id `f"ARTICLE::{article}"`. -/
def ARTICLE_ID (article : Tok) : Tok := ("ARTICLE::".toList) ++ article

/-- The node id `f"{entity_col.upper()}::{item}"`. -/
def ENTITY_ID (entityCol : String) (item : Tok) : Tok :=
  upperStr entityCol.toList ++ ("::".toList) ++ item

/-- The inner loop of `build_graph` (lines 114–123): add the entity node and
the article-entity edge unless already seen. -/
def addEntity (articleId : Tok) (entityCol : String) (st : GBuild) (item : Tok) : GBuild :=
  let entityId := ENTITY_ID entityCol item
  let st1 :=
    if st.seenNodes.contains entityId then st
    else { st with seenNodes := entityId :: st.seenNodes,
                   g := { st.g with nodes := st.g.nodes ++ [(entityId, item)] } }
  if st1.seenEdges.contains (articleId, entityId) then st1
  else { st1 with seenEdges := (articleId, entityId) :: st1.seenEdges,
                  g := { st1.g with edges := st1.g.edges ++ [(articleId, entityId)] } }

/-- One row iteration of `build_graph` (lines 95–123): skip rows with a
blank article name or no parsed items; otherwise add the article node (if
new) and every entity node and edge. -/
def buildStep (entityCol : String) (st : GBuild) (row : Row) : GBuild :=
  let article := pyStrip (pyStr row.articleName)
  if article.isEmpty then st
  else
    let items := parse_items_to_upper (row.cells entityCol)
    if items.isEmpty then st
    else
      let articleId := ARTICLE_ID article
      let st1 :=
        if st.seenNodes.contains articleId then st
        else { st with seenNodes := articleId :: st.seenNodes,
                       g := { st.g with nodes := st.g.nodes ++ [(articleId, article)] } }
      items.foldl (addEntity articleId entityCol) st1

/-- `build_graph(df, entity_col, ...)` (lines 69–125), returning the built
network. -/
def build_graph (rows : List Row) (entityCol : String) : Graph :=
  (rows.foldl (buildStep entityCol) ⟨[], [], ⟨[], []⟩⟩).g

/-- `REQUIRED_COLUMNS` of the network generator. -/
def REQUIRED_COLUMNS : List String :=
  ["File Name", "Article Name", "Proteins", "Genes", "DNA", "RNA", "Meth-RNA"]

/-- `ASSOCIATIONS`: entity column to output file name. -/
def ASSOCIATIONS : List (String × String) :=
  [("Proteins", "articles_to_proteins.html"), ("Genes", "articles_to_genes.html"),
   ("DNA", "articles_to_dna.html"), ("RNA", "articles_to_rna.html"),
   ("Meth-RNA", "articles_to_meth_rna.html")]

/-- The loaded CSV as the network generator sees it. -/
structure NetTable where
  columns : List String
  rows : List Row

/-- `validate_columns` (lines 60–66) followed by the build loop of the
network generator's `main` (lines 131–143): a missing required column raises
`ValueError` before any artifact is produced; otherwise one graph per
association is written. -/
def network_main (df : NetTable) : Except String (List (String × Graph)) :=
  let missing := REQUIRED_COLUMNS.filter (fun c => ¬ df.columns.contains c)
  if missing.isEmpty then
    Except.ok (ASSOCIATIONS.map fun a => (a.2, build_graph df.rows a.1))
  else Except.error "Missing required columns in CSV"

/-!
### Statistics Aggregator (`code/article_info_stat_generator.py`)
-/

/-- `CATEGORIES` of the statistics generator. -/
def CATEGORIES : List String := ["Proteins", "Genes", "DNA", "RNA", "Meth-RNA"]

/-- `EMPTY_LIKE`: placeholders discarded after cleanup. -/
def EMPTY_LIKE : List Tok :=
  (["", "nan", "none", "null", "[]", "\x7b\x7d", "na", "n/a", "-", "--"]).map String.toList

/-- The separator class of `_SPLIT_RE = re.compile(r"[;,]")`. -/
def statSep (c : Char) : Bool := c == ';' || c == ','

/-- `re.split` over a character class without `+`: split at every separator
occurrence, keeping empty pieces. -/
def splitEvery (sep : Char → Bool) : List Char → List (List Char)
  | [] => [[]]
  | c :: cs =>
    let rest := splitEvery sep cs
    if sep c then [] :: rest
    else match rest with
         | r :: rs => (c :: r) :: rs
         | [] => [[c]]

/-- The wrapping test of `clean_token` (lines 30–33): the token starts and
ends with (possibly different) quote characters, or is wrapped in matching
square brackets, curly braces, or parentheses. -/
def wrappedPair (t : Tok) : Bool :=
  match t with
  | [] => false
  | c :: cs =>
    let lastc := (c :: cs).getLast (List.cons_ne_nil c cs)
    ((c == squoteC || c == quoteC) && (lastc == squoteC || lastc == quoteC)) ||
    (c == '[' && lastc == ']') ||
    (c == lbraceC && lastc == rbraceC) ||
    (c == '(' && lastc == ')')

/-- `clean_token(tok)` (lines 28–36): strip; remove one wrapped outer pair
and strip again; collapse internal whitespace runs and strip. -/
def clean_token (tok : Tok) : Tok :=
  let t0 := pyStrip tok
  let t1 := if wrappedPair t0 then pyStrip ((t0.drop 1).dropLast) else t0
  pyStrip (collapseWs t1)

/-- `key_for(tok)` (lines 39–40), parameterised by the `CASE_INSENSITIVE`
module flag (`False` in the source's configuration). -/
def key_for (caseInsensitive : Bool) (tok : Tok) : Tok :=
  if caseInsensitive then pyStrip (lowerStr tok) else pyStrip tok

/-- A `collections.Counter` over strings: insertion-ordered key/count
pairs. -/
abbrev Cnt := List (Tok × Nat)

/-- `Counter[x] += 1`: increment the existing entry, else append a new one. -/
def bump (l : Cnt) (x : Tok) : Cnt :=
  match l with
  | [] => [(x, 1)]
  | (y, n) :: rest => if y = x then (y, n + 1) :: rest else (y, n) :: bump rest x

/-- The `defaultdict(Counter)` casing tracker: per canonical key, a counter
of the original casings, in insertion order. -/
abbrev CasingTracker := List (Tok × Cnt)

/-- `casing_tracker[k][name] += 1`. -/
def bumpNested (l : CasingTracker) (k name : Tok) : CasingTracker :=
  match l with
  | [] => [(k, [(name, 1)])]
  | (y, c) :: rest => if y = k then (y, bump c name) :: rest else (y, c) :: bumpNested rest k name

/-- `Counter.most_common(1)`: the earliest entry holding the maximal count
(`heapq.nlargest` is stable, so ties go to insertion order). -/
def most_common1 : Cnt → Option (Tok × Nat)
  | [] => none
  | (x, n) :: rest =>
    match most_common1 rest with
    | none => some (x, n)
    | some (y, m) => if m ≤ n then some (x, n) else some (y, m)

/-- The kept tokens of one cell (lines 48–52): split on `[;,]`, clean each
part, drop parts that are empty or empty-like after cleanup. -/
def cellTokens (val : Tok) : List Tok :=
  ((splitEvery statSep val).map clean_token).filter
    (fun name => !name.isEmpty && !(EMPTY_LIKE.contains (lowerStr name)))

/-- The token stream of a whole column: `series.dropna().astype(str)` then
each cell's kept tokens, in row order. -/
def tokenStream (series : List (Option Tok)) : List Tok :=
  (series.filterMap id).flatMap cellTokens

/-- One token's worth of the `extract_items` loop (lines 53–55): bump the
key's count and the key's casing counter. -/
def extractStep (ci : Bool) (st : Cnt × CasingTracker) (name : Tok) : Cnt × CasingTracker :=
  let k := key_for ci name
  (bump st.1 k, bumpNested st.2 k name)

/-- `extract_items(series)` (lines 43–60), parameterised by
`CASE_INSENSITIVE`: the counts and the casing tracker. -/
def extract_items (ci : Bool) (series : List (Option Tok)) : Cnt × CasingTracker :=
  (tokenStream series).foldl (extractStep ci) ([], [])

/-- `cts.most_common(1)[0][0]` with the (unreachable) empty case defaulting
to the key itself. -/
def repLabel (k : Tok) (c : Cnt) : Tok := ((most_common1 c).map Prod.fst).getD k

/-- `rep_map` (lines 57–59). -/
def rep_map_of (cas : CasingTracker) : List (Tok × Tok) :=
  cas.map fun p => (p.1, repLabel p.1 p.2)

/-- First-match association lookup (Python `dict` access on the insertion-
ordered pairs; keys are unique in every use below). -/
def lookupA {α : Type} : List (Tok × α) → Tok → Option α
  | [], _ => none
  | (k, v) :: rest, x => if k = x then some v else lookupA rest x

/-- Python string `<=`: lexicographic comparison by code point. -/
def strLe : List Char → List Char → Bool
  | [], _ => true
  | _ :: _, [] => false
  | a :: as, b :: bs =>
    if a.toNat < b.toNat then true else if b.toNat < a.toNat then false else strLe as bs

/-- The sort key `lambda x: (-x[1], x[0].lower())` of line 91 as a total
order test. -/
def rowLe (a b : Tok × Nat) : Bool :=
  if a.2 = b.2 then strLe (lowerStr a.1) (lowerStr b.1) else decide (b.2 < a.2)

/-- Insert `x` after every element `≤ x` (so later-coming elements land
after their key-equal predecessors, as a stable sort requires). -/
def insertStable {α : Type} (le : α → α → Bool) (x : α) : List α → List α
  | [] => [x]
  | y :: ys => if le y x then y :: insertStable le x ys else x :: y :: ys

/-- Python `list.sort` is a stable sort; for a total, transitive comparison
its output is the unique sorted, stable permutation, here realised as a
stable insertion sort. -/
def stableSort {α : Type} (le : α → α → Bool) (l : List α) : List α :=
  l.foldl (fun acc x => insertStable le x acc) []

/-- Lines 90–92 of the statistics generator's `main` for one category:
the `(rep_map.get(k, k), count)` rows, sorted by descending count with
ascending lowercased label as tie-break (`list.sort` is a stable merge
sort). -/
def stat_rows (ci : Bool) (series : List (Option Tok)) : List (Tok × Nat) :=
  let r := extract_items ci series
  let rep := rep_map_of r.2
  let rows := r.1.map fun p => ((lookupA rep p.1).getD p.1, p.2)
  stableSort rowLe rows

/-- The loaded CSV as the statistics generator sees it: columns and a cell
series per column name. -/
structure StatTable where
  columns : List String
  col : String → List (Option Tok)

/-- The statistics generator's `main` (lines 63–94) after the input file is
located: a missing expected column raises `ValueError` before any sheet is
written; otherwise one sorted row list per category is produced. -/
def stat_main (ci : Bool) (df : StatTable) : Except String (List (String × List (Tok × Nat))) :=
  let missing := CATEGORIES.filter (fun c => ¬ df.columns.contains c)
  if missing.isEmpty then
    Except.ok (CATEGORIES.map fun cat => (cat, stat_rows ci (df.col cat)))
  else Except.error "Missing expected columns in CSV"

/-!
### Specification-side notions used to state the claims
-/

/-- The kept tokens that the Statistics Aggregator maps to the canonical key
`k`, in encounter order. -/
def occsOf (ci : Bool) (series : List (Option Tok)) (k : Tok) : List Tok :=
  (tokenStream series).filter (fun n => key_for ci n == k)

/-- Index of the first occurrence of `x` (length of the list when absent):
the "first seen" order of the tie-break. -/
def firstIdx (x : Tok) : List Tok → Nat
  | [] => 0
  | y :: ys => if y = x then 0 else firstIdx x ys + 1

/-- The distinct elements of a list, each at its first occurrence, in
order. -/
def firstOccs : List Tok → List Tok
  | [] => []
  | x :: xs => x :: firstOccs (xs.filter (· != x))
termination_by l => l.length
decreasing_by
  simp only [List.length_cons, Nat.lt_succ_iff]
  exact List.length_filter_le _ _

/-!
## Lemmas about tokenization
-/

theorem pyTokens_cons_ws {c : Char} (h : isWs c = true) (l : List Char) :
    pyTokens (c :: l) = pyTokens l := by
  cases l with
  | nil => simp [pyTokens, h]
  | cons d cs => simp [pyTokens, h]

theorem pyTokens_sound : ∀ (s : List Char), ∀ t ∈ pyTokens s, t ≠ [] ∧ ∀ c ∈ t, isWs c = false
  | [] => by simp [pyTokens]
  | [c] => by
      by_cases h : isWs c
      · simp [pyTokens, h]
      · simp only [Bool.not_eq_true] at h
        simp [pyTokens, h]
  | a :: d :: cs => by
      have ih := pyTokens_sound (d :: cs)
      by_cases ha : isWs a
      · rw [pyTokens_cons_ws ha]
        exact ih
      · simp only [Bool.not_eq_true] at ha
        rw [pyTokens]
        simp only [ha, Bool.false_eq_true, if_false]
        rcases hp : pyTokens (d :: cs) with _ | ⟨t, ts⟩
        · intro u hu
          simp only [List.mem_singleton] at hu
          subst hu
          refine ⟨by simp, ?_⟩
          intro c hc
          simp only [List.mem_singleton] at hc
          subst hc
          exact ha
        · rw [hp] at ih
          by_cases hd : isWs d
          · simp only [hd, if_true]
            intro u hu
            rcases List.mem_cons.mp hu with h1 | h2
            · subst h1
              exact ⟨by simp, by intro c hc; simp only [List.mem_singleton] at hc; subst hc; exact ha⟩
            · exact ih u h2
          · simp only [hd, Bool.false_eq_true, if_false]
            intro u hu
            rcases List.mem_cons.mp hu with h1 | h2
            · subst h1
              have ht := ih t (by simp)
              refine ⟨by simp, ?_⟩
              intro c hc
              rcases List.mem_cons.mp hc with rfl | hc2
              · exact ha
              · exact ht.2 c hc2
            · exact ih u (by simp [h2])

theorem pyTokens_token_append :
    ∀ (t rest : List Char), t ≠ [] → (∀ c ∈ t, isWs c = false) →
    (rest = [] ∨ ∃ d ds, rest = d :: ds ∧ isWs d = true) →
    pyTokens (t ++ rest) = t :: pyTokens rest
  | [], _, ht, _, _ => absurd rfl ht
  | [a], rest, _, hc, hrest => by
      have ha : isWs a = false := hc a (by simp)
      rcases hrest with rfl | ⟨d, ds, rfl, hd⟩
      · simp [pyTokens, ha]
      · show pyTokens (a :: d :: ds) = [a] :: pyTokens (d :: ds)
        rw [pyTokens]
        simp only [ha, Bool.false_eq_true, if_false]
        rcases hp : pyTokens (d :: ds) with _ | ⟨t, ts⟩
        · rfl
        · simp [hd]
  | a :: b :: t', rest, _, hc, hrest => by
      have ha : isWs a = false := hc a (by simp)
      have hb : isWs b = false := hc b (by simp)
      have ih := pyTokens_token_append (b :: t') rest (by simp)
        (fun c hcm => hc c (List.mem_cons_of_mem a hcm)) hrest
      show pyTokens (a :: b :: (t' ++ rest)) = (a :: b :: t') :: pyTokens rest
      rw [pyTokens]
      simp only [ha, Bool.false_eq_true, if_false]
      have hx : pyTokens (b :: (t' ++ rest)) = (b :: t') :: pyTokens rest := ih
      rw [hx]
      simp [hb]

theorem pyTokens_joinSp : ∀ (ts : List (List Char)),
    (∀ t ∈ ts, t ≠ [] ∧ ∀ c ∈ t, isWs c = false) → pyTokens (joinSp ts) = ts
  | [] => fun _ => by simp [joinSp, pyTokens]
  | [t] => fun h => by
      have ht := h t (by simp)
      have := pyTokens_token_append t [] ht.1 ht.2 (Or.inl rfl)
      rw [joinSp]
      simpa [pyTokens] using this
  | t :: u :: ts => fun h => by
      have ht := h t (by simp)
      rw [joinSp]
      rw [pyTokens_token_append t (' ' :: joinSp (u :: ts)) ht.1 ht.2
        (Or.inr ⟨' ', joinSp (u :: ts), rfl, by decide⟩)]
      rw [pyTokens_cons_ws (show isWs ' ' = true by decide)]
      rw [pyTokens_joinSp (u :: ts) (fun v hv => h v (List.mem_cons_of_mem t hv))]

theorem cap_words_of_le (t : List Char) (n : Int) (h : ((pyTokens t).length : Int) ≤ n) :
    cap_words t n = t := by
  simp [cap_words, h]

theorem cap_words_of_gt (t : List Char) (n : Int) (h0 : 0 ≤ n)
    (h : ¬ ((pyTokens t).length : Int) ≤ n) :
    cap_words t n = joinSp ((pyTokens t).take n.toNat) := by
  simp [cap_words, h, pySliceTo, h0]

theorem pyTokens_cap_words (t : List Char) (n : Int) (h0 : 0 ≤ n)
    (h : ¬ ((pyTokens t).length : Int) ≤ n) :
    pyTokens (cap_words t n) = (pyTokens t).take n.toNat := by
  rw [cap_words_of_gt t n h0 h]
  exact pyTokens_joinSp _ (fun u hu => pyTokens_sound t u (List.mem_of_mem_take hu))

/-!
## Claims C9 and C10: `cap_words` and `word_count`
-/

/-- Claim C9, counterexample to the claim as stated: `cap_words` is quantified
over "every cap n", but for the negative cap `-1` (where the Python slice
`tokens[:cap]` drops trailing words instead of keeping a budget) capping twice
keeps dropping: `cap_words(cap_words("a b c", -1), -1)` is `"a"` while
`cap_words("a b c", -1)` is `"a b"`. -/
theorem c9_counterexample :
    cap_words (cap_words ("a b c".toList) (-1)) (-1) ≠ cap_words ("a b c".toList) (-1) := by
  decide

/-- Claim C9 (amended: for every nonnegative cap `n`): `cap_words` is
idempotent under equal or larger bounds — for every text `t` and caps
`0 ≤ n ≤ m`, `cap_words(cap_words(t, n), m) = cap_words(t, n)`; the stated
`m = n` case is included. -/
theorem c9_cap_words_idempotent (t : List Char) (n m : Int) (h0 : 0 ≤ n) (hnm : n ≤ m) :
    cap_words (cap_words t n) m = cap_words t n := by
  by_cases hc : ((pyTokens t).length : Int) ≤ n
  · rw [cap_words_of_le t n hc, cap_words_of_le t m (le_trans hc hnm)]
  · rw [cap_words_of_gt t n h0 hc]
    apply cap_words_of_le
    rw [pyTokens_joinSp _ (fun u hu => pyTokens_sound t u (List.mem_of_mem_take hu))]
    rw [List.length_take]
    omega

/-- Witness for C9's amended theorem at `t = "a b c"`, `n = 2`, `m = 5`. -/
theorem c9_witness : (0 : Int) ≤ 2 ∧ (2 : Int) ≤ 5 ∧
    cap_words (cap_words ("a b c".toList) 2) 5 = cap_words ("a b c".toList) 2 :=
  ⟨by decide, by decide, c9_cap_words_idempotent ("a b c".toList) 2 5 (by decide) (by decide)⟩

/-- Claim C10: for every text `t` and nonnegative cap `n`,
`word_count(cap_words(t, n)) = min(word_count(t), n)`; in particular the
"Word Count (processed_cap)" value never exceeds the configured cap. -/
theorem c10_word_count_cap_words (t : List Char) (n : Int) (h0 : 0 ≤ n) :
    (word_count (cap_words t n) : Int) = min (word_count t : Int) n := by
  by_cases hc : ((pyTokens t).length : Int) ≤ n
  · rw [cap_words_of_le t n hc]
    unfold word_count
    omega
  · unfold word_count
    rw [pyTokens_cap_words t n h0 hc, List.length_take]
    omega

/-- Witness for C10 at `t = "a b c"` (three words), `n = 2`. -/
theorem c10_witness : (0 : Int) ≤ 2 ∧
    (word_count (cap_words ("a b c".toList) 2) : Int) = min (word_count ("a b c".toList) : Int) 2 :=
  ⟨by decide, c10_word_count_cap_words ("a b c".toList) 2 (by decide)⟩

/-!
## Claim C5: `truncate_at_references`
-/

theorem truncAux_eq_none_iff : ∀ (ls : List (List Char)),
    truncAux ls = none ↔ ∀ l ∈ ls, isRefHeading l = false
  | [] => by simp [truncAux]
  | l :: ls => by
      by_cases h : isRefHeading l
      · simp [truncAux, h]
      · simp only [Bool.not_eq_true] at h
        simp [truncAux, h, truncAux_eq_none_iff ls]

theorem truncAux_found : ∀ (pre : List (List Char)) (l : List Char) (post : List (List Char)),
    (∀ x ∈ pre, isRefHeading x = false) → isRefHeading l = true →
    truncAux (pre ++ l :: post) = some pre
  | [], l, post, _, hl => by simp [truncAux, hl]
  | p :: pre, l, post, hpre, hl => by
      have hp : isRefHeading p = false := hpre p (by simp)
      simp only [List.cons_append, truncAux, hp, Bool.false_eq_true, if_false, List.append_eq]
      rw [truncAux_found pre l post (fun x hx => hpre x (by simp [hx])) hl]
      rfl

/-- Claim C5, counterexample to the claim as stated: the claim says the
matching heading line "together with all lines after it" is dropped (which
for `"a \nReferences\nx"` would leave the first line `"a "` intact), but the
source additionally right-strips the retained text (line 144's `.rstrip()`),
so the trailing space of `"a "` is dropped too and the result is `"a"`. -/
theorem c5_counterexample :
    truncate_at_references ("a \nReferences\nx".toList) = ("a".toList) ∧
    ("a".toList : List Char) ≠ ("a ".toList) :=
  ⟨by decide, by decide⟩

/-- Claim C5 (amended: and trailing whitespace of the retained text is also
stripped): for every text, if no line is a references heading the text is
returned unchanged; if the first references-heading line (matching
case-insensitively, ignoring surrounding whitespace and an optional trailing
colon, exactly "references" or "reference") splits the lines as
`pre ++ heading :: post`, the result is the lines of `pre` rejoined and
right-stripped — the heading and everything after it is dropped, and lines
inside sentences such as "reference genome" never match. -/
theorem c5_truncate_at_references (text : List Char) :
    ((∀ l ∈ splitlines text, isRefHeading l = false) → truncate_at_references text = text) ∧
    (∀ pre l post, splitlines text = pre ++ l :: post → isRefHeading l = true →
      (∀ x ∈ pre, isRefHeading x = false) →
      truncate_at_references text = dropTrailingWs (joinNl pre)) := by
  constructor
  · intro h
    unfold truncate_at_references
    rw [(truncAux_eq_none_iff _).mpr h]
  · intro pre l post hsplit hl hpre
    unfold truncate_at_references
    rw [hsplit, truncAux_found pre l post hpre hl]

/-- Witness for C5's amended theorem at the text `"a \nReferences\nx"`. -/
theorem c5_witness :
    splitlines ("a \nReferences\nx".toList) =
      [("a ".toList)] ++ ("References".toList) :: [("x".toList)] ∧
    isRefHeading ("References".toList) = true ∧
    (∀ x ∈ [("a ".toList)], isRefHeading x = false) ∧
    truncate_at_references ("a \nReferences\nx".toList) = dropTrailingWs (joinNl [("a ".toList)]) :=
  ⟨by decide, by decide, by decide,
   (c5_truncate_at_references ("a \nReferences\nx".toList)).2
     [("a ".toList)] ("References".toList) [("x".toList)] (by decide) (by decide) (by decide)⟩

/-!
## Claim C1: missing annotator credential
-/

/-- Claim C1, counterexample to the claim as stated: the claim says that with
the credential absent "no document is read, preprocessed, or written", but
`main` wraps each document in its own `try`/`except` and `call_model` only
raises after the document was read, preprocessed and its Markdown written —
so with an empty key the trace still contains those effects. -/
theorem c1_counterexample :
    Ev.read "a.pdf" ∈ extractionTrace "" ["a.pdf"] ∧
    Ev.mdWritten "a.pdf" ∈ extractionTrace "" ["a.pdf"] := by
  decide

/-- Claim C1 (amended): when the annotator credential is absent, every
document is still read, preprocessed and written out as Markdown, and the
per-document error is logged; but the annotator is never actually invoked
and no document's row is ever appended to the table — the failure is caught
per document and the run continues instead of aborting. -/
theorem c1_missing_key (docs : List String) (d : String) (h : d ∈ docs) :
    Ev.read d ∈ extractionTrace "" docs ∧
    Ev.preprocessed d ∈ extractionTrace "" docs ∧
    Ev.mdWritten d ∈ extractionTrace "" docs ∧
    Ev.errorLogged d ∈ extractionTrace "" docs ∧
    Ev.rowWritten d ∉ extractionTrace "" docs ∧
    Ev.modelCalled d ∉ extractionTrace "" docs := by
  have hmem : ∀ e ∈ [Ev.read d, Ev.preprocessed d, Ev.mdWritten d, Ev.errorLogged d],
      e ∈ extractionTrace "" docs := by
    intro e he
    exact List.mem_flatMap.mpr ⟨d, h, by simpa [processDoc] using he⟩
  refine ⟨hmem _ (by simp), hmem _ (by simp), hmem _ (by simp), hmem _ (by simp), ?_, ?_⟩
  · intro hcon
    rcases List.mem_flatMap.mp hcon with ⟨d2, _, hin⟩
    simp [processDoc] at hin
  · intro hcon
    rcases List.mem_flatMap.mp hcon with ⟨d2, _, hin⟩
    simp [processDoc] at hin

/-- Witness for C1's amended theorem at the one-document folder
`["a.pdf"]`. -/
theorem c1_witness : ("a.pdf" ∈ ["a.pdf"]) ∧
    (Ev.read "a.pdf" ∈ extractionTrace "" ["a.pdf"] ∧
     Ev.preprocessed "a.pdf" ∈ extractionTrace "" ["a.pdf"] ∧
     Ev.mdWritten "a.pdf" ∈ extractionTrace "" ["a.pdf"] ∧
     Ev.errorLogged "a.pdf" ∈ extractionTrace "" ["a.pdf"] ∧
     Ev.rowWritten "a.pdf" ∉ extractionTrace "" ["a.pdf"] ∧
     Ev.modelCalled "a.pdf" ∉ extractionTrace "" ["a.pdf"]) :=
  ⟨by simp, c1_missing_key ["a.pdf"] "a.pdf" (by simp)⟩

/-!
## Claim C6: rows with no entities contribute nothing to that category's graph
-/

theorem buildStep_empty_items (entityCol : String) (st : GBuild) (row : Row)
    (h : parse_items_to_upper (row.cells entityCol) = []) :
    buildStep entityCol st row = st := by
  unfold buildStep
  by_cases ha : (pyStrip (pyStr row.articleName)).isEmpty
  · simp [ha]
  · simp [ha, h]

/-- Claim C6: a document row whose tokenized cell for a category is empty
contributes no node and no edge to that category's graph — removing the row
leaves the built graph unchanged (in particular no isolated document node is
created), while the same document may well appear in another category's
graph built from its other cells. -/
theorem c6_empty_cell_contributes_nothing (entityCol : String) (r : Row)
    (pre post : List Row) (h : parse_items_to_upper (r.cells entityCol) = []) :
    build_graph (pre ++ r :: post) entityCol = build_graph (pre ++ post) entityCol := by
  unfold build_graph
  rw [List.foldl_append, List.foldl_append, List.foldl_cons,
    buildStep_empty_items entityCol _ r h]

/-- Witness for C6: a row with no Genes cell contributes nothing to the
Genes graph (and the same row does appear in the Proteins graph, as its
nonempty Proteins cell shows). -/
theorem c6_witness :
    parse_items_to_upper
      ((⟨some ("Doc B".toList), fun c => if c = "Proteins" then some ("p53".toList) else none⟩ :
        Row).cells "Genes") = [] ∧
    build_graph ([(⟨some ("Doc A".toList), fun _ => some ("tp53".toList)⟩ : Row)] ++
        (⟨some ("Doc B".toList), fun c => if c = "Proteins" then some ("p53".toList) else none⟩ :
          Row) :: []) "Genes" =
      build_graph ([(⟨some ("Doc A".toList), fun _ => some ("tp53".toList)⟩ : Row)] ++ []) "Genes" ∧
    (ARTICLE_ID ("Doc B".toList), ("Doc B".toList)) ∈
      (build_graph
        [⟨some ("Doc B".toList), fun c => if c = "Proteins" then some ("p53".toList) else none⟩]
        "Proteins").nodes :=
  ⟨by decide,
   c6_empty_cell_contributes_nothing "Genes"
     (⟨some ("Doc B".toList), fun c => if c = "Proteins" then some ("p53".toList) else none⟩ : Row)
     [(⟨some ("Doc A".toList), fun _ => some ("tp53".toList)⟩ : Row)] [] (by decide),
   by decide⟩

/-!
## Claim C7: missing required columns are fatal
-/

/-- Claim C7: if any required entity-category column is missing, both the
Graph Builder (`validate_columns`, checked before any graph is built) and
the Statistics Aggregator (its `main`'s column check, before any sheet is
written) abort with an error and produce no output artifact. -/
theorem c7_missing_columns_fatal (dfN : NetTable) (dfS : StatTable) (ci : Bool)
    (cn : String) (hn : cn ∈ REQUIRED_COLUMNS) (hnm : dfN.columns.contains cn = false)
    (cs : String) (hs : cs ∈ CATEGORIES) (hsm : dfS.columns.contains cs = false) :
    network_main dfN = Except.error "Missing required columns in CSV" ∧
    stat_main ci dfS = Except.error "Missing expected columns in CSV" := by
  constructor
  · have hcm : cn ∉ dfN.columns := by simpa using hnm
    have hmem : cn ∈ REQUIRED_COLUMNS.filter (fun c => ¬ dfN.columns.contains c) := by
      rw [List.mem_filter]
      exact ⟨hn, by simp [hcm]⟩
    have hne := List.ne_nil_of_mem hmem
    unfold network_main
    rw [if_neg (fun hc => hne (List.isEmpty_iff.mp hc))]
  · have hcm : cs ∉ dfS.columns := by simpa using hsm
    have hmem : cs ∈ CATEGORIES.filter (fun c => ¬ dfS.columns.contains c) := by
      rw [List.mem_filter]
      exact ⟨hs, by simp [hcm]⟩
    have hne := List.ne_nil_of_mem hmem
    unfold stat_main
    rw [if_neg (fun hc => hne (List.isEmpty_iff.mp hc))]

/-- Witness for C7 at empty tables lacking every column. -/
theorem c7_witness :
    ("File Name" ∈ REQUIRED_COLUMNS) ∧
    ((⟨[], []⟩ : NetTable).columns.contains "File Name" = false) ∧
    ("Proteins" ∈ CATEGORIES) ∧
    ((⟨[], fun _ => []⟩ : StatTable).columns.contains "Proteins" = false) ∧
    (network_main ⟨[], []⟩ = Except.error "Missing required columns in CSV" ∧
     stat_main false ⟨[], fun _ => []⟩ = Except.error "Missing expected columns in CSV") :=
  ⟨by decide, by decide, by decide, by decide,
   c7_missing_columns_fatal ⟨[], []⟩ ⟨[], fun _ => []⟩ false
     "File Name" (by decide) (by decide) "Proteins" (by decide) (by decide)⟩

/-!
## Claim C2: token cleanup of the two consumers

The key bridge: `re.sub(r"\s+", " ", t).strip()` (the Statistics
Aggregator's whitespace cleanup) agrees with `" ".join(t.split())` (the
Graph Builder's): both rejoin the non-whitespace runs with single spaces.
-/

theorem collapseWs_cons_nonws {c : Char} (h : isWs c = false) (l : List Char) :
    collapseWs (c :: l) = c :: collapseWs l := by
  cases l with
  | nil => simp [collapseWs, h]
  | cons d cs => simp [collapseWs, h]

theorem collapseWs_cons_ws : ∀ (l : List Char) {c : Char}, isWs c = true →
    collapseWs (c :: l) = ' ' :: collapseWs (l.dropWhile isWs)
  | [], c, h => by simp [collapseWs, h]
  | d :: cs, c, h => by
      by_cases hd : isWs d
      · rw [show collapseWs (c :: d :: cs) = collapseWs (d :: cs) by simp [collapseWs, h, hd]]
        rw [collapseWs_cons_ws cs hd]
        simp [List.dropWhile_cons, hd]
      · simp only [Bool.not_eq_true] at hd
        simp [collapseWs, h, hd, List.dropWhile_cons]

theorem collapseWs_nonws_append : ∀ (t X : List Char), (∀ c ∈ t, isWs c = false) →
    collapseWs (t ++ X) = t ++ collapseWs X
  | [], _, _ => rfl
  | a :: t', X, h => by
      rw [List.cons_append, collapseWs_cons_nonws (h a (by simp)),
        collapseWs_nonws_append t' X (fun c hc => h c (List.mem_cons_of_mem a hc))]
      rfl

theorem pyTokens_dropWhile : ∀ (l : List Char), pyTokens (l.dropWhile isWs) = pyTokens l
  | [] => rfl
  | c :: cs => by
      by_cases h : isWs c
      · rw [List.dropWhile_cons, if_pos h, pyTokens_dropWhile cs, pyTokens_cons_ws h]
      · rw [List.dropWhile_cons, if_neg (by simp [h])]

theorem dropTrailingWs_nonws : ∀ (t : List Char), (∀ c ∈ t, isWs c = false) →
    dropTrailingWs t = t
  | [], _ => rfl
  | c :: cs, h => by
      rw [dropTrailingWs, dropTrailingWs_nonws cs (fun x hx => h x (List.mem_cons_of_mem c hx))]
      cases cs with
      | nil => simp [h c (by simp)]
      | cons d ds => rfl

theorem dropTrailingWs_append_nil : ∀ (t X : List Char), dropTrailingWs X = [] →
    dropTrailingWs (t ++ X) = dropTrailingWs t
  | [], X, hX => by simpa using hX
  | c :: t', X, hX => by
      rw [List.cons_append, dropTrailingWs, dropTrailingWs_append_nil t' X hX, dropTrailingWs]

theorem dropTrailingWs_append_ne : ∀ (t X : List Char), dropTrailingWs X ≠ [] →
    dropTrailingWs (t ++ X) = t ++ dropTrailingWs X
  | [], X, _ => rfl
  | c :: t', X, hX => by
      rw [List.cons_append, dropTrailingWs, dropTrailingWs_append_ne t' X hX]
      rcases ht : dropTrailingWs X with _ | ⟨r, rs⟩
      · exact absurd ht hX
      · rcases t' with _ | ⟨e, es⟩
        · simp
        · simp

theorem joinSp_cons_ne : ∀ (t : List Char) (ts : List (List Char)), ts ≠ [] →
    joinSp (t :: ts) = t ++ ' ' :: joinSp ts
  | _, [], h => absurd rfl h
  | _, _ :: _, _ => rfl

theorem joinSp_ne_nil : ∀ (ts : List (List Char)), ts ≠ [] → (∀ t ∈ ts, t ≠ []) →
    joinSp ts ≠ []
  | [], h, _ => absurd rfl h
  | [t], _, hne => by simpa [joinSp] using hne t (by simp)
  | t :: u :: ts, _, hne => by
      rw [joinSp_cons_ne t (u :: ts) (by simp)]
      have := hne t (by simp)
      simp [this]

theorem dropWhile_head_false : ∀ (l : List Char) (p : Char → Bool) (c : Char) (cs : List Char),
    l.dropWhile p = c :: cs → p c = false
  | [], _, _, _, h => by simp at h
  | a :: l', p, c, cs, h => by
      by_cases ha : p a
      · rw [List.dropWhile_cons, if_pos ha] at h
        exact dropWhile_head_false l' p c cs h
      · rw [List.dropWhile_cons, if_neg ha] at h
        cases h
        simpa using ha

theorem pyStrip_collapseWs : ∀ (l : List Char), pyStrip (collapseWs l) = joinSp (pyTokens l)
  | [] => rfl
  | c :: cs => by
      by_cases hc : isWs c
      · rw [collapseWs_cons_ws cs hc]
        have h1 : pyStrip (' ' :: collapseWs (cs.dropWhile isWs)) =
            pyStrip (collapseWs (cs.dropWhile isWs)) := by
          rw [pyStrip, pyStrip, List.dropWhile_cons, if_pos (show isWs ' ' = true by decide)]
        rw [h1, pyStrip_collapseWs (cs.dropWhile isWs), pyTokens_dropWhile,
          pyTokens_cons_ws hc]
      · have hc' : isWs c = false := by simpa using hc
        have hsplit : c :: cs =
            (c :: cs.takeWhile (fun d => !isWs d)) ++ cs.dropWhile (fun d => !isWs d) := by
          rw [List.cons_append, List.takeWhile_append_dropWhile]
        have htok : ∀ x ∈ c :: cs.takeWhile (fun d => !isWs d), isWs x = false := by
          intro x hx
          rcases List.mem_cons.mp hx with rfl | hx2
          · exact hc'
          · simpa using List.mem_takeWhile_imp hx2
        have hdw : cs.dropWhile (fun d => !isWs d) = [] ∨
            ∃ e es, cs.dropWhile (fun d => !isWs d) = e :: es ∧ isWs e = true := by
          rcases hd : cs.dropWhile (fun d => !isWs d) with _ | ⟨e, es⟩
          · exact Or.inl rfl
          · refine Or.inr ⟨e, es, rfl, ?_⟩
            have hf := dropWhile_head_false cs (fun d => !isWs d) e es hd
            simpa using hf
        rw [hsplit, collapseWs_nonws_append _ _ htok,
          pyTokens_token_append _ _ (by simp) htok hdw]
        rcases hdw with hnil | ⟨e, es, heq, hws⟩
        · rw [hnil]
          have hcol : collapseWs ([] : List Char) = [] := rfl
          have hpt : pyTokens ([] : List Char) = [] := rfl
          rw [hcol, hpt, List.append_nil, pyStrip, List.dropWhile_cons,
            if_neg (by simp [hc']), dropTrailingWs_nonws _ htok]
          rfl
        · rw [heq, collapseWs_cons_ws es hws, pyTokens_cons_ws hws, ← pyTokens_dropWhile es]
          have hrec := pyStrip_collapseWs (es.dropWhile isWs)
          have hYdw : (collapseWs (es.dropWhile isWs)).dropWhile isWs =
              collapseWs (es.dropWhile isWs) := by
            rcases hE : es.dropWhile isWs with _ | ⟨f, fs⟩
            · rfl
            · have hf : isWs f = false := dropWhile_head_false es isWs f fs hE
              rw [collapseWs_cons_nonws hf, List.dropWhile_cons, if_neg (by simp [hf])]
          rw [pyStrip, hYdw] at hrec
          rw [pyStrip, List.cons_append, List.dropWhile_cons, if_neg (by simp [hc']),
            ← List.cons_append]
          by_cases hTnil : pyTokens (es.dropWhile isWs) = []
          · have hYnil : dropTrailingWs (collapseWs (es.dropWhile isWs)) = [] := by
              rw [hrec, hTnil]
              rfl
            have hsp : dropTrailingWs (' ' :: collapseWs (es.dropWhile isWs)) = [] := by
              rw [dropTrailingWs, hYnil]
              rfl
            rw [dropTrailingWs_append_nil _ _ hsp, dropTrailingWs_nonws _ htok, hTnil]
            rfl
          · have hYne : dropTrailingWs (collapseWs (es.dropWhile isWs)) ≠ [] := by
              rw [hrec]
              exact joinSp_ne_nil _ hTnil
                (fun t ht => (pyTokens_sound (es.dropWhile isWs) t ht).1)
            have hsp : dropTrailingWs (' ' :: collapseWs (es.dropWhile isWs)) =
                ' ' :: dropTrailingWs (collapseWs (es.dropWhile isWs)) := by
              rw [dropTrailingWs]
              rcases hYd : dropTrailingWs (collapseWs (es.dropWhile isWs)) with _ | ⟨r, rs⟩
              · exact absurd hYd hYne
              · rfl
            rw [dropTrailingWs_append_ne _ _ (by rw [hsp]; simp), hsp, hrec,
              joinSp_cons_ne _ _ hTnil]
termination_by l => l.length
decreasing_by
  · simp only [List.length_cons, Nat.lt_succ_iff]
    exact (List.dropWhile_sublist isWs).length_le
  · simp only [List.length_cons]
    have h1 : (es.dropWhile isWs).length ≤ es.length := (List.dropWhile_sublist isWs).length_le
    have h2 : (e :: es).length ≤ cs.length := by
      rw [← heq]
      exact (List.dropWhile_sublist (fun d => !isWs d)).length_le
    simp only [List.length_cons] at h2
    omega

/-- Claim C2, counterexample to the claim as stated: the claim says both
consumers' tokenizers strip an outer wrapped pair, but the Graph Builder's
`parse_items_to_upper` performs no pair-stripping at all — the token
`"[tp53]"` keeps its brackets there, while the Statistics Aggregator's
`clean_token` does strip them. -/
theorem c2_counterexample :
    parse_items_to_upper (some ("[tp53]".toList)) = [("[TP53]".toList)] ∧
    clean_token ("[tp53]".toList) = ("tp53".toList) :=
  ⟨by decide, by decide⟩

/-- Claim C2 (amended: the cleanup is only partially shared): both consumers
trim surrounding whitespace and collapse internal whitespace runs to single
spaces — on every token that is not wrapped in quote/bracket/brace/paren
characters, `clean_token` agrees exactly with the Graph Builder's per-part
cleanup `" ".join(p.strip().split())` — but only the Statistics Aggregator
additionally strips a wrapped outer pair; the Graph Builder strips none
(and additionally uppercases). -/
theorem c2_clean_token_eq_normalize (p : Tok) (h : wrappedPair (pyStrip p) = false) :
    clean_token p = normalizeWsPy p := by
  unfold clean_token normalizeWsPy
  simp only [h, Bool.false_eq_true, if_false]
  exact pyStrip_collapseWs (pyStrip p)

/-- Witness for C2's amended theorem at the unwrapped token
`"  tp53   x "`. -/
theorem c2_witness :
    wrappedPair (pyStrip ("  tp53   x ".toList)) = false ∧
    clean_token ("  tp53   x ".toList) = normalizeWsPy ("  tp53   x ".toList) :=
  ⟨by decide, c2_clean_token_eq_normalize ("  tp53   x ".toList) (by decide)⟩

/-!
## Claim C3: the tolerant structured-output parser
-/

theorem isPre_self_append : ∀ (p t : List Char), isPre p (p ++ t) = true
  | [], _ => rfl
  | a :: ps, t => by
      rw [List.cons_append, isPre]
      simp [isPre_self_append ps t]

theorem isPre_iff : ∀ (p s : List Char), isPre p s = true ↔ ∃ t, s = p ++ t
  | [], s => by simp [isPre]
  | a :: ps, [] => by simp [isPre]
  | a :: ps, c :: cs => by
      rw [isPre, Bool.and_eq_true, beq_iff_eq]
      constructor
      · rintro ⟨rfl, h2⟩
        obtain ⟨t, rfl⟩ := (isPre_iff ps cs).mp h2
        exact ⟨t, rfl⟩
      · rintro ⟨t, ht⟩
        rw [List.cons_append] at ht
        injection ht with h1 h2
        subst h1
        exact ⟨rfl, (isPre_iff ps cs).mpr ⟨t, h2⟩⟩

theorem isPre_cons_of_ne {a c : Char} (ps x : List Char) (h : (a == c) = false) :
    isPre (a :: ps) (c :: x) = false := by
  rw [isPre, h, Bool.false_and]

theorem findSub_of_isPre {p s : List Char} (h : isPre p s = true) : findSub p s = some 0 := by
  cases s with
  | nil =>
    cases p with
    | nil => rfl
    | cons a ps => simp [isPre] at h
  | cons c cs => rw [findSub, if_pos h]

theorem findSub_cons_none {pat : List Char} {c : Char} {s : List Char}
    (h : findSub pat (c :: s) = none) : isPre pat (c :: s) = false ∧ findSub pat s = none := by
  by_cases hp : isPre pat (c :: s) = true
  · rw [findSub, if_pos hp] at h
    simp at h
  · rw [findSub, if_neg hp] at h
    exact ⟨by simpa using hp, by simpa using h⟩

theorem findSub_append_marker : ∀ (s pat : List Char), pat ≠ [] → '\n' ∉ pat →
    findSub pat s = none → findSub pat (s ++ '\n' :: pat) = some (s.length + 1)
  | [], pat, hne, hnl, _ => by
      have hpre : isPre pat ('\n' :: pat) = false := by
        cases pat with
        | nil => exact absurd rfl hne
        | cons a ps =>
          by_contra hcon
          rw [Bool.not_eq_false, isPre, Bool.and_eq_true, beq_iff_eq] at hcon
          have h1 : a = '\n' := hcon.1
          subst h1
          exact hnl (List.mem_cons_self _ _)
      have hself : isPre pat pat = true := by simpa using isPre_self_append pat []
      rw [List.nil_append, findSub, if_neg (by simp [hpre]), findSub_of_isPre hself]
      rfl
  | c :: s', pat, hne, hnl, h => by
      obtain ⟨hp1, hp2⟩ := findSub_cons_none h
      have hstr : isPre pat (c :: (s' ++ '\n' :: pat)) = false := by
        by_contra hcon
        rw [Bool.not_eq_false] at hcon
        obtain ⟨t, ht⟩ := (isPre_iff _ _).mp hcon
        by_cases hlen : pat.length ≤ (c :: s').length
        · have htk : ((c :: s') ++ '\n' :: pat).take pat.length = pat := by
            rw [show (c :: s') ++ '\n' :: pat = c :: (s' ++ '\n' :: pat) from rfl, ht,
              List.take_left]
          rw [List.take_append_eq_append_take, Nat.sub_eq_zero_of_le hlen, List.take_zero,
            List.append_nil] at htk
          have hin : isPre pat (c :: s') = true := by
            apply (isPre_iff _ _).mpr
            refine ⟨(c :: s').drop pat.length, ?_⟩
            conv_lhs => rw [← List.take_append_drop pat.length (c :: s')]
            rw [htk]
          rw [hp1] at hin
          exact Bool.false_ne_true hin
        · have htk : ((c :: s') ++ '\n' :: pat).take pat.length = pat := by
            rw [show (c :: s') ++ '\n' :: pat = c :: (s' ++ '\n' :: pat) from rfl, ht,
              List.take_left]
          rw [List.take_append_eq_append_take] at htk
          have hpos : 1 ≤ pat.length - (c :: s').length := by
            simp only [Nat.not_le] at hlen
            omega
          have hmem : '\n' ∈ pat := by
            rw [← htk]
            apply List.mem_append_right
            rcases hk : pat.length - (c :: s').length with _ | k
            · omega
            · rw [List.take_succ_cons]
              simp
          exact hnl hmem
      rw [List.cons_append, findSub, if_neg (by simp [hstr])]
      rw [findSub_append_marker s' pat hne hnl hp2]
      rfl

theorem pyStrip_cons_ws {c : Char} (h : isWs c = true) (l : List Char) :
    pyStrip (c :: l) = pyStrip l := by
  rw [pyStrip, pyStrip, List.dropWhile_cons, if_pos h]

theorem dropTrailingWs_single_ws {c : Char} (h : isWs c = true) : dropTrailingWs [c] = [] := by
  have h0 : dropTrailingWs ([] : List Char) = [] := rfl
  rw [dropTrailingWs, h0]
  simp [h]

theorem pyStrip_append_ws {c : Char} (h : isWs c = true) (l : List Char) :
    pyStrip (l ++ [c]) = pyStrip l := by
  rw [pyStrip, pyStrip, List.dropWhile_append]
  by_cases he : (l.dropWhile isWs).isEmpty
  · rw [if_pos he, List.isEmpty_iff.mp he]
    simp [List.dropWhile_cons, h]
  · rw [if_neg he]
    exact dropTrailingWs_append_nil _ _ (dropTrailingWs_single_ws h)

theorem pyStrip_of_ends_nonws (p mid q : List Char) (hp : p ≠ []) (hq : q ≠ [])
    (hpc : ∀ c ∈ p, isWs c = false) (hqc : ∀ c ∈ q, isWs c = false) :
    pyStrip (p ++ mid ++ q) = p ++ mid ++ q := by
  cases p with
  | nil => exact absurd rfl hp
  | cons a p' =>
    rw [pyStrip]
    rw [show (a :: p') ++ mid ++ q = a :: (p' ++ mid ++ q) from by simp]
    rw [List.dropWhile_cons, if_neg (by simp [hpc a (by simp)])]
    rw [show a :: (p' ++ mid ++ q) = (a :: (p' ++ mid)) ++ q from by simp]
    rw [dropTrailingWs_append_ne _ _ (by rw [dropTrailingWs_nonws q hqc]; exact hq),
      dropTrailingWs_nonws q hqc]

/-- Claim C3: the tolerant parser of the annotator output.  The embedding is
total — every fallible `json.loads` call is wrapped exactly as the source's
`try`/`except` does, so "never raises" holds by construction — and:
a mapping input is returned unchanged; any text wrapped in a ````json` fence
whose stripped content parses as JSON (and contains no stray fence) parses
to that very value; and the unparseable text `"not json at all"` yields the
empty mapping. -/
theorem c3_tolerant_parsing :
    (∀ m, clean_and_parse_json (J.jobj m) = J.jobj m) ∧
    (∀ (s : List Char) (v : J), hasSub ("```".toList) s = false →
      jsonParse (pyStrip s) = some v →
      clean_and_parse_json
        (J.jstr (("```json".toList) ++ '\n' :: (s ++ '\n' :: ("```".toList)))) = v) ∧
    clean_and_parse_json (J.jstr ("not json at all".toList)) = J.jobj [] := by
  refine ⟨fun m => rfl, ?_, by rfl⟩
  intro s v hs hp
  have hfs : findSub ("```".toList) s = none := by
    cases hfind : findSub ("```".toList) s with
    | none => rfl
    | some i =>
      rw [hasSub, hfind] at hs
      simp at hs
  have hstrip : pyStrip (("```json".toList) ++ '\n' :: (s ++ '\n' :: ("```".toList))) =
      ("```json".toList) ++ '\n' :: (s ++ '\n' :: ("```".toList)) := by
    have hre : ("```json".toList) ++ '\n' :: (s ++ '\n' :: ("```".toList)) =
        ("```json".toList) ++ ('\n' :: s ++ ['\n']) ++ ("```".toList) := by
      simp
    rw [hre]
    exact pyStrip_of_ends_nonws _ _ _ (by decide) (by decide) (by decide) (by decide)
  have hfence : isPre ("```".toList)
      (("```json".toList) ++ '\n' :: (s ++ '\n' :: ("```".toList))) = true := by
    rw [show ("```json".toList) ++ '\n' :: (s ++ '\n' :: ("```".toList)) =
      ("```".toList) ++ (("json".toList) ++ '\n' :: (s ++ '\n' :: ("```".toList))) from by simp]
    exact isPre_self_append _ _
  have hfind0 : findSub ("```json".toList)
      (("```json".toList) ++ '\n' :: (s ++ '\n' :: ("```".toList))) = some 0 :=
    findSub_of_isPre (isPre_self_append _ _)
  have hafter : splitAfter ("```json".toList)
      (("```json".toList) ++ '\n' :: (s ++ '\n' :: ("```".toList))) =
      '\n' :: (s ++ '\n' :: ("```".toList)) := by
    rw [splitAfter, hfind0]
    show List.drop (0 + ("```json".toList).length)
      (("```json".toList) ++ '\n' :: (s ++ '\n' :: ("```".toList))) = _
    rw [Nat.zero_add, List.drop_left]
  have h96 : isPre ("```".toList) ('\n' :: s) = false := by
    rw [show ("```".toList) = (Char.ofNat 96) :: ("``".toList) from by decide]
    exact isPre_cons_of_ne _ _ (by decide)
  have hfs2 : findSub ("```".toList) ('\n' :: s) = none := by
    have hneg : ¬ (isPre ("```".toList) ('\n' :: s) = true) := by
      rw [h96]
      simp
    rw [findSub, if_neg hneg, hfs]
    rfl
  have hfindq : findSub ("```".toList) ('\n' :: (s ++ '\n' :: ("```".toList))) =
      some (('\n' :: s).length + 1) := by
    rw [show '\n' :: (s ++ '\n' :: ("```".toList)) =
      ('\n' :: s) ++ '\n' :: ("```".toList) from rfl]
    exact findSub_append_marker ('\n' :: s) ("```".toList) (by decide) (by decide) hfs2
  have hbefore : splitBefore ("```".toList) ('\n' :: (s ++ '\n' :: ("```".toList))) =
      '\n' :: (s ++ ['\n']) := by
    rw [splitBefore, hfindq]
    show List.take (('\n' :: s).length + 1) ('\n' :: (s ++ '\n' :: ("```".toList))) = _
    rw [show '\n' :: (s ++ '\n' :: ("```".toList)) =
      ('\n' :: s) ++ '\n' :: ("```".toList) from rfl]
    have harith : ('\n' :: s).length + 1 - ('\n' :: s).length = 1 := by omega
    rw [List.take_append_eq_append_take, List.take_of_length_le (by simp), harith]
    rfl
  have hstrip2 : pyStrip ('\n' :: (s ++ ['\n'])) = pyStrip s := by
    rw [pyStrip_cons_ws (by decide), pyStrip_append_ws (by decide)]
  have hhas : hasSub ("```json".toList)
      (("```json".toList) ++ '\n' :: (s ++ '\n' :: ("```".toList))) = true := by
    rw [hasSub, hfind0]
    rfl
  simp only [clean_and_parse_json]
  rw [hstrip, if_pos hfence, if_pos hhas, hafter, hbefore, hstrip2, hp]

/-- Witness for C3's fenced clause at the spec's own example: the fenced
string `"```json\n\x7b\"DNA\": [\"X\"]\x7d\n```"` parses to the mapping
with the one key `DNA`. -/
theorem c3_witness :
    hasSub ("```".toList) ("\x7b\"DNA\": [\"X\"]\x7d".toList) = false ∧
    jsonParse (pyStrip ("\x7b\"DNA\": [\"X\"]\x7d".toList)) =
      some (J.jobj [(("DNA".toList), J.jarr [J.jstr ("X".toList)])]) ∧
    clean_and_parse_json (J.jstr (("```json".toList) ++ '\n' ::
        (("\x7b\"DNA\": [\"X\"]\x7d".toList) ++ '\n' :: ("```".toList)))) =
      J.jobj [(("DNA".toList), J.jarr [J.jstr ("X".toList)])] :=
  ⟨by decide, by rfl,
   c3_tolerant_parsing.2.1 ("\x7b\"DNA\": [\"X\"]\x7d".toList)
     (J.jobj [(("DNA".toList), J.jarr [J.jstr ("X".toList)])]) (by decide) (by rfl)⟩

/-!
## Claim C8: ordering of the frequency report
-/

theorem strLe_total : ∀ (a b : List Char), (strLe a b || strLe b a) = true
  | [], b => by
      cases b <;> simp [strLe]
  | _ :: _, [] => by simp [strLe]
  | a :: as, b :: bs => by
      rw [strLe, strLe]
      by_cases h1 : a.toNat < b.toNat
      · simp [h1]
      · by_cases h2 : b.toNat < a.toNat
        · simp [h1, h2]
        · simp only [h1, h2, if_false]
          exact strLe_total as bs

theorem strLe_trans : ∀ (a b c : List Char), strLe a b = true → strLe b c = true →
    strLe a c = true
  | [], _, _, _, _ => rfl
  | _ :: _, [], _, h1, _ => by simp [strLe] at h1
  | _ :: _, _ :: _, [], _, h2 => by simp [strLe] at h2
  | a :: as, b :: bs, c :: cs, h1, h2 => by
      rw [strLe] at h1 h2 ⊢
      rcases Nat.lt_trichotomy a.toNat b.toNat with hab | hab | hab
      · rcases Nat.lt_trichotomy b.toNat c.toNat with hbc | hbc | hbc
        · rw [if_pos (show a.toNat < c.toNat by omega)]
        · rw [if_pos (show a.toNat < c.toNat by omega)]
        · rw [if_neg (show ¬ b.toNat < c.toNat by omega), if_pos hbc] at h2
          exact absurd h2 (by simp)
      · rcases Nat.lt_trichotomy b.toNat c.toNat with hbc | hbc | hbc
        · rw [if_pos (show a.toNat < c.toNat by omega)]
        · rw [if_neg (show ¬ a.toNat < b.toNat by omega),
            if_neg (show ¬ b.toNat < a.toNat by omega)] at h1
          rw [if_neg (show ¬ b.toNat < c.toNat by omega),
            if_neg (show ¬ c.toNat < b.toNat by omega)] at h2
          rw [if_neg (show ¬ a.toNat < c.toNat by omega),
            if_neg (show ¬ c.toNat < a.toNat by omega)]
          exact strLe_trans as bs cs h1 h2
        · rw [if_neg (show ¬ b.toNat < c.toNat by omega), if_pos hbc] at h2
          exact absurd h2 (by simp)
      · rw [if_neg (show ¬ a.toNat < b.toNat by omega), if_pos hab] at h1
        exact absurd h1 (by simp)

theorem rowLe_total (a b : Tok × Nat) : (rowLe a b || rowLe b a) = true := by
  rw [rowLe, rowLe]
  by_cases h : a.2 = b.2
  · rw [if_pos h, if_pos h.symm]
    exact strLe_total _ _
  · rw [if_neg h, if_neg (fun hh => h hh.symm)]
    rcases Nat.lt_trichotomy a.2 b.2 with hl | hl | hl
    · simp [hl]
    · exact absurd hl h
    · simp [hl]

theorem rowLe_trans (a b c : Tok × Nat) (h1 : rowLe a b = true) (h2 : rowLe b c = true) :
    rowLe a c = true := by
  rw [rowLe] at h1 h2 ⊢
  by_cases hab : a.2 = b.2
  · by_cases hbc : b.2 = c.2
    · rw [if_pos hab] at h1
      rw [if_pos hbc] at h2
      rw [if_pos (hab.trans hbc)]
      exact strLe_trans _ _ _ h1 h2
    · rw [if_pos hab] at h1
      rw [if_neg hbc] at h2
      have hcb : c.2 < b.2 := of_decide_eq_true h2
      rw [if_neg (show ¬ a.2 = c.2 by omega)]
      exact decide_eq_true (show c.2 < a.2 by omega)
  · rw [if_neg hab] at h1
    have hba : b.2 < a.2 := of_decide_eq_true h1
    by_cases hbc : b.2 = c.2
    · rw [if_pos hbc] at h2
      rw [if_neg (show ¬ a.2 = c.2 by omega)]
      exact decide_eq_true (show c.2 < a.2 by omega)
    · rw [if_neg hbc] at h2
      have hcb : c.2 < b.2 := of_decide_eq_true h2
      rw [if_neg (show ¬ a.2 = c.2 by omega)]
      exact decide_eq_true (show c.2 < a.2 by omega)

theorem mem_insertStable {α : Type} (le : α → α → Bool) (x : α) :
    ∀ (l : List α) (z : α), z ∈ insertStable le x l → z = x ∨ z ∈ l
  | [], z, h => Or.inl (by simpa [insertStable] using h)
  | y :: ys, z, h => by
      rw [insertStable] at h
      by_cases hc : le y x
      · rw [if_pos hc] at h
        rcases List.mem_cons.mp h with rfl | h2
        · exact Or.inr (by simp)
        · rcases mem_insertStable le x ys z h2 with h3 | h3
          · exact Or.inl h3
          · exact Or.inr (by simp [h3])
      · rw [if_neg hc] at h
        rcases List.mem_cons.mp h with rfl | h2
        · exact Or.inl rfl
        · exact Or.inr h2

theorem pairwise_insertStable {α : Type} (le : α → α → Bool)
    (htrans : ∀ a b c, le a b = true → le b c = true → le a c = true)
    (htotal : ∀ a b, (le a b || le b a) = true) (x : α) :
    ∀ (l : List α), l.Pairwise (fun a b => le a b = true) →
      (insertStable le x l).Pairwise (fun a b => le a b = true)
  | [], _ => by simp [insertStable]
  | y :: ys, hp => by
      rw [insertStable]
      rcases List.pairwise_cons.mp hp with ⟨hy, hys⟩
      by_cases hc : le y x
      · rw [if_pos hc]
        apply List.pairwise_cons.mpr
        refine ⟨?_, pairwise_insertStable le htrans htotal x ys hys⟩
        intro z hz
        rcases mem_insertStable le x ys z hz with rfl | h3
        · exact hc
        · exact hy z h3
      · rw [if_neg hc]
        apply List.pairwise_cons.mpr
        have hxy : le x y = true := by
          have ht := htotal x y
          rw [Bool.or_eq_true] at ht
          rcases ht with h | h
          · exact h
          · exact absurd h hc
        refine ⟨?_, hp⟩
        intro z hz
        rcases List.mem_cons.mp hz with rfl | h3
        · exact hxy
        · exact htrans x y z hxy (hy z h3)

theorem pairwise_stableSort {α : Type} (le : α → α → Bool)
    (htrans : ∀ a b c, le a b = true → le b c = true → le a c = true)
    (htotal : ∀ a b, (le a b || le b a) = true) (l : List α) :
    (stableSort le l).Pairwise (fun a b => le a b = true) := by
  suffices h : ∀ (m acc : List α), acc.Pairwise (fun a b => le a b = true) →
      (m.foldl (fun acc x => insertStable le x acc) acc).Pairwise
        (fun a b => le a b = true) from h l [] (by simp)
  intro m
  induction m with
  | nil =>
    intro acc h
    simpa using h
  | cons x xs ih =>
    intro acc h
    rw [List.foldl_cons]
    exact ih _ (pairwise_insertStable le htrans htotal x acc h)

/-- Claim C8: every category's frequency report emitted by the Statistics
Aggregator's `main` is a list of (display label, count) rows ordered by
descending count, with ties ordered by ascending case-insensitive
(lowercased, code-point lexicographic) label. -/
theorem c8_stat_rows_sorted (ci : Bool) (df : StatTable)
    (out : List (String × List (Tok × Nat))) (hout : stat_main ci df = Except.ok out) :
    ∀ p ∈ out, p.2.Pairwise
      (fun a b => b.2 < a.2 ∨ (a.2 = b.2 ∧ strLe (lowerStr a.1) (lowerStr b.1) = true)) := by
  intro p hp
  unfold stat_main at hout
  by_cases hmiss : (CATEGORIES.filter (fun c => ¬ df.columns.contains c)).isEmpty
  · rw [if_pos hmiss] at hout
    injection hout with hout
    subst hout
    obtain ⟨cat, _, rfl⟩ := List.mem_map.mp hp
    show (stat_rows ci (df.col cat)).Pairwise _
    have hsorted := pairwise_stableSort rowLe rowLe_trans rowLe_total
      ((extract_items ci (df.col cat)).1.map fun q =>
        ((lookupA (rep_map_of (extract_items ci (df.col cat)).2) q.1).getD q.1, q.2))
    apply List.Pairwise.imp ?himp hsorted
    case himp =>
      intro a b hle
      rw [rowLe] at hle
      by_cases h : a.2 = b.2
      · rw [if_pos h] at hle
        exact Or.inr ⟨h, hle⟩
      · rw [if_neg h] at hle
        exact Or.inl (of_decide_eq_true hle)
  · rw [if_neg hmiss] at hout
    simp at hout

/-- Witness for C8 at a one-cell table whose cell `"b,a"` gives two rows
tied at count 1, ordered by label. -/
theorem c8_witness :
    stat_main false ⟨CATEGORIES, fun _ => [some ("b,a".toList)]⟩ =
      Except.ok (CATEGORIES.map fun cat => (cat, [("a".toList, 1), ("b".toList, 1)])) ∧
    ("Proteins", [(("a".toList : Tok), 1), ("b".toList, 1)]) ∈
      (CATEGORIES.map fun cat => (cat, [(("a".toList : Tok), 1), ("b".toList, 1)])) ∧
    ([(("a".toList : Tok), 1), ("b".toList, 1)] : List (Tok × Nat)).Pairwise
      (fun a b => b.2 < a.2 ∨ (a.2 = b.2 ∧ strLe (lowerStr a.1) (lowerStr b.1) = true)) :=
  ⟨by rfl, by decide,
   c8_stat_rows_sorted false ⟨CATEGORIES, fun _ => [some ("b,a".toList)]⟩
     (CATEGORIES.map fun cat => (cat, [(("a".toList : Tok), 1), ("b".toList, 1)]))
     (by rfl)
     ("Proteins", [(("a".toList : Tok), 1), ("b".toList, 1)]) (by decide)⟩

/-!
## Claim C4: display labels

First-occurrence order, its interplay with filtering, and the behaviour of
`most_common1` over a counter whose entries are in first-occurrence order.
-/

theorem firstOccs_nil : firstOccs [] = [] := by
  rw [firstOccs]

theorem firstOccs_cons (x : Tok) (xs : List Tok) :
    firstOccs (x :: xs) = x :: firstOccs (xs.filter (· != x)) := by
  rw [firstOccs]

theorem mem_firstOccs_aux : ∀ (n : Nat) (l : List Tok), l.length ≤ n →
    ∀ a, (a ∈ firstOccs l ↔ a ∈ l)
  | _, [], _, a => by rw [firstOccs_nil]
  | 0, x :: xs, hl, a => by simp at hl
  | n + 1, x :: xs, hl, a => by
      have hlen : xs.length ≤ n := by
        simp only [List.length_cons] at hl
        omega
      rw [firstOccs_cons, List.mem_cons, List.mem_cons,
        mem_firstOccs_aux n (xs.filter (· != x))
          (le_trans (List.length_filter_le _ _) hlen) a, List.mem_filter]
      constructor
      · rintro (rfl | ⟨h1, _⟩)
        · exact Or.inl rfl
        · exact Or.inr h1
      · rintro (rfl | h1)
        · exact Or.inl rfl
        · by_cases hax : a = x
          · exact Or.inl hax
          · exact Or.inr ⟨h1, by simp [hax]⟩

theorem mem_firstOccs (l : List Tok) (a : Tok) : a ∈ firstOccs l ↔ a ∈ l :=
  mem_firstOccs_aux l.length l le_rfl a

theorem firstOccs_filter_aux : ∀ (n : Nat) (l : List Tok) (p : Tok → Bool), l.length ≤ n →
    firstOccs (l.filter p) = (firstOccs l).filter p
  | _, [], _, _ => by simp [firstOccs_nil]
  | 0, x :: xs, _, hl => by simp at hl
  | n + 1, x :: xs, p, hl => by
      have hlen : xs.length ≤ n := by
        simp only [List.length_cons] at hl
        omega
      by_cases hp : p x
      · rw [List.filter_cons_of_pos hp, firstOccs_cons, firstOccs_cons,
          List.filter_cons_of_pos hp]
        congr 1
        rw [← firstOccs_filter_aux n (xs.filter (· != x)) p
          (le_trans (List.length_filter_le _ _) hlen)]
        rw [List.filter_filter, List.filter_filter]
        congr 1
        exact List.filter_congr (fun a _ => Bool.and_comm _ _)
      · rw [List.filter_cons_of_neg hp, firstOccs_cons, List.filter_cons_of_neg hp]
        rw [← firstOccs_filter_aux n (xs.filter (· != x)) p
          (le_trans (List.length_filter_le _ _) hlen)]
        rw [List.filter_filter]
        congr 1
        apply List.filter_congr
        intro a _
        by_cases hax : a = x
        · subst hax
          have hpx : p a = false := by simpa using hp
          simp [hpx]
        · simp [hax]

theorem firstOccs_filter (l : List Tok) (p : Tok → Bool) :
    firstOccs (l.filter p) = (firstOccs l).filter p :=
  firstOccs_filter_aux l.length l p le_rfl

theorem firstIdx_cons (y x : Tok) (l : List Tok) :
    firstIdx x (y :: l) = if y = x then 0 else firstIdx x l + 1 := rfl

theorem firstIdx_filter_lt : ∀ (l : List Tok) (p : Tok → Bool) (a b : Tok),
    a ∈ l.filter p → b ∈ l.filter p →
    firstIdx a (l.filter p) < firstIdx b (l.filter p) → firstIdx a l < firstIdx b l
  | [], _, a, _, ha, _, _ => by simp at ha
  | h :: l, p, a, b, ha, hb, hlt => by
      by_cases hp : p h
      · rw [List.filter_cons_of_pos hp] at ha hb hlt
        by_cases hha : h = a
        · subst hha
          have hbh : h ≠ b := by
            intro hcon
            subst hcon
            simp [firstIdx_cons] at hlt
          rw [firstIdx_cons, if_pos rfl, firstIdx_cons, if_neg hbh]
          omega
        · by_cases hhb : h = b
          · subst hhb
            have hz : firstIdx h (h :: l.filter p) = 0 := by
              rw [firstIdx_cons, if_pos rfl]
            rw [hz] at hlt
            omega
          · rw [firstIdx_cons, if_neg hha, firstIdx_cons, if_neg hhb] at hlt
            have haf : a ∈ l.filter p := by
              rcases List.mem_cons.mp ha with rfl | h2
              · exact absurd rfl hha
              · exact h2
            have hbf : b ∈ l.filter p := by
              rcases List.mem_cons.mp hb with rfl | h2
              · exact absurd rfl hhb
              · exact h2
            have hrec := firstIdx_filter_lt l p a b haf hbf (by omega)
            rw [firstIdx_cons, if_neg hha, firstIdx_cons, if_neg hhb]
            omega
      · rw [List.filter_cons_of_neg hp] at ha hb hlt
        have hha : h ≠ a := by
          intro hcon
          rw [hcon] at hp
          exact hp (List.mem_filter.mp ha).2
        have hhb : h ≠ b := by
          intro hcon
          rw [hcon] at hp
          exact hp (List.mem_filter.mp hb).2
        have hrec := firstIdx_filter_lt l p a b ha hb hlt
        rw [firstIdx_cons, if_neg hha, firstIdx_cons, if_neg hhb]
        omega

theorem pairwise_firstIdx_aux : ∀ (n : Nat) (l : List Tok), l.length ≤ n →
    (firstOccs l).Pairwise (fun a b => firstIdx a l < firstIdx b l)
  | _, [], _ => by simp [firstOccs_nil]
  | 0, x :: xs, hl => by simp at hl
  | n + 1, x :: xs, hl => by
      have hlen : xs.length ≤ n := by
        simp only [List.length_cons] at hl
        omega
      rw [firstOccs_cons]
      apply List.pairwise_cons.mpr
      constructor
      · intro b hb
        have hbmem : b ∈ xs.filter (· != x) := (mem_firstOccs _ _).mp hb
        have hbx : x ≠ b := by
          have h2 := (List.mem_filter.mp hbmem).2
          simp only [bne_iff_ne, ne_eq, decide_eq_true_eq] at h2
          exact fun hcon => h2 hcon.symm
        rw [firstIdx_cons, if_pos rfl, firstIdx_cons, if_neg hbx]
        omega
      · have hrec := pairwise_firstIdx_aux n (xs.filter (· != x))
          (le_trans (List.length_filter_le _ _) hlen)
        apply List.Pairwise.imp_of_mem ?himp hrec
        case himp =>
          intro a b ha hb hlt
          have hamem := (mem_firstOccs _ _).mp ha
          have hbmem := (mem_firstOccs _ _).mp hb
          have h2 := firstIdx_filter_lt xs (· != x) a b hamem hbmem hlt
          have hax : x ≠ a := by
            have h3 := (List.mem_filter.mp hamem).2
            simp only [bne_iff_ne, ne_eq, decide_eq_true_eq] at h3
            exact fun hcon => h3 hcon.symm
          have hbx : x ≠ b := by
            have h3 := (List.mem_filter.mp hbmem).2
            simp only [bne_iff_ne, ne_eq, decide_eq_true_eq] at h3
            exact fun hcon => h3 hcon.symm
          rw [firstIdx_cons, if_neg hax, firstIdx_cons, if_neg hbx]
          omega

theorem pairwise_firstIdx (l : List Tok) :
    (firstOccs l).Pairwise (fun a b => firstIdx a l < firstIdx b l) :=
  pairwise_firstIdx_aux l.length l le_rfl

theorem most_common1_eq_none : ∀ (es : Cnt), most_common1 es = none ↔ es = []
  | [] => by simp [most_common1]
  | (x, n) :: rest => by
      rw [most_common1]
      cases h : most_common1 rest with
      | none => simp
      | some p =>
          rcases p with ⟨y, m⟩
          by_cases hc : m ≤ n <;> simp [hc]

theorem most_common1_split : ∀ (es : Cnt) (x : Tok) (n : Nat),
    most_common1 es = some (x, n) →
    ∃ u w, es = u ++ (x, n) :: w ∧ (∀ q ∈ u, q.2 < n) ∧ (∀ q ∈ w, q.2 ≤ n)
  | [], x, n, h => by simp [most_common1] at h
  | (a, k) :: rest, x, n, h => by
      rw [most_common1] at h
      cases hr : most_common1 rest with
      | none =>
        rw [hr] at h
        have h2 : some (a, k) = some (x, n) := h
        injection h2 with h3
        injection h3 with h4 h5
        subst h4
        subst h5
        have hrest : rest = [] := (most_common1_eq_none rest).mp hr
        subst hrest
        exact ⟨[], [], rfl, by simp, by simp⟩
      | some p =>
        rcases p with ⟨y, m⟩
        rw [hr] at h
        have h2 : (if m ≤ k then some (a, k) else some (y, m)) = some (x, n) := h
        obtain ⟨u, w, hew, hu, hw⟩ := most_common1_split rest y m hr
        by_cases hc : m ≤ k
        · rw [if_pos hc] at h2
          injection h2 with h3
          injection h3 with h4 h5
          subst h4
          subst h5
          refine ⟨[], rest, rfl, by simp, ?_⟩
          intro q hq
          rw [hew] at hq
          rcases List.mem_append.mp hq with hq1 | hq2
          · exact le_trans (le_of_lt (hu q hq1)) hc
          · rcases List.mem_cons.mp hq2 with rfl | hq3
            · exact hc
            · exact le_trans (hw q hq3) hc
        · rw [if_neg hc] at h2
          injection h2 with h3
          injection h3 with h4 h5
          subst h4
          subst h5
          refine ⟨(a, k) :: u, w, by rw [hew, List.cons_append], ?_, hw⟩
          intro q hq
          rcases List.mem_cons.mp hq with rfl | hq2
          · show k < m
            omega
          · exact hu q hq2

theorem lookupA_map_fn {α : Type} : ∀ (ks : List Tok) (G : Tok → α) (k : Tok),
    lookupA (ks.map (fun x => (x, G x))) k = if k ∈ ks then some (G k) else none
  | [], G, k => by simp [lookupA]
  | x :: ks, G, k => by
      rw [List.map_cons, lookupA]
      by_cases hx : x = k
      · subst hx
        simp
      · rw [if_neg hx, lookupA_map_fn ks G k]
        by_cases hk : k ∈ ks
        · rw [if_pos hk, if_pos (List.mem_cons_of_mem x hk)]
        · rw [if_neg hk, if_neg ?hnm]
          case hnm =>
            intro hcon
            rcases List.mem_cons.mp hcon with rfl | h2
            · exact hx rfl
            · exact hk h2

theorem firstOccs_nodup (l : List Tok) : (firstOccs l).Nodup := by
  apply List.Pairwise.imp ?h (pairwise_firstIdx l)
  case h =>
    intro a b hlt hcon
    subst hcon
    exact Nat.lt_irrefl _ hlt

theorem firstOccs_append_singleton_aux : ∀ (n : Nat) (l : List Tok) (a : Tok), l.length ≤ n →
    firstOccs (l ++ [a]) = if a ∈ l then firstOccs l else firstOccs l ++ [a]
  | _, [], a, _ => by simp [firstOccs_cons, firstOccs_nil]
  | 0, x :: xs, a, hl => by simp at hl
  | n + 1, x :: xs, a, hl => by
      have hlen : xs.length ≤ n := by
        simp only [List.length_cons] at hl
        omega
      rw [List.cons_append, firstOccs_cons, List.filter_append]
      by_cases hax : a = x
      · subst hax
        rw [show List.filter (· != a) [a] = [] from by simp]
        rw [List.append_nil, if_pos (by simp), firstOccs_cons]
      · rw [show List.filter (· != x) [a] = [a] from by simp [hax]]
        rw [firstOccs_append_singleton_aux n (xs.filter (· != x)) a
          (le_trans (List.length_filter_le _ _) hlen)]
        by_cases hmem : a ∈ xs
        · rw [if_pos (List.mem_filter.mpr ⟨hmem, by simp [hax]⟩)]
          rw [if_pos (List.mem_cons_of_mem x hmem), firstOccs_cons]
        · rw [if_neg (fun hc => hmem (List.mem_filter.mp hc).1)]
          rw [if_neg (by simp [hax, hmem]), firstOccs_cons, List.cons_append]

theorem firstOccs_append_singleton (l : List Tok) (a : Tok) :
    firstOccs (l ++ [a]) = if a ∈ l then firstOccs l else firstOccs l ++ [a] :=
  firstOccs_append_singleton_aux l.length l a le_rfl

theorem bump_not_mem : ∀ (l : Cnt) (x : Tok), x ∉ l.map Prod.fst → bump l x = l ++ [(x, 1)]
  | [], _, _ => rfl
  | (y, n) :: rest, x, h => by
      have hyx : y ≠ x := fun hcon => h (by simp [hcon])
      rw [bump, if_neg hyx, bump_not_mem rest x (fun hc => h (by simp [hc]))]
      rfl

theorem bump_mem : ∀ (l : Cnt) (x : Tok), (l.map Prod.fst).Nodup → x ∈ l.map Prod.fst →
    bump l x = l.map (fun p => (p.1, if p.1 = x then p.2 + 1 else p.2))
  | [], x, _, h => by simp at h
  | (y, n) :: rest, x, hnd, h => by
      by_cases hyx : y = x
      · subst hyx
        have hniy : y ∉ rest.map Prod.fst := by
          rw [List.map_cons] at hnd
          exact (List.nodup_cons.mp hnd).1
        have hmap : rest.map (fun p : Tok × Nat => (p.1, if p.1 = y then p.2 + 1 else p.2)) =
            rest := by
          conv_rhs => rw [← List.map_id rest]
          apply List.map_congr_left
          intro p hp
          have hpy : p.1 ≠ y := fun hcon => hniy (hcon ▸ List.mem_map_of_mem Prod.fst hp)
          simp [hpy]
        rw [bump, if_pos rfl, List.map_cons, hmap]
        simp
      · have hx2 : x ∈ rest.map Prod.fst := by
          rw [List.map_cons] at h
          rcases List.mem_cons.mp h with rfl | h2
          · exact absurd rfl hyx
          · exact h2
        have hnd2 : (rest.map Prod.fst).Nodup := by
          rw [List.map_cons] at hnd
          exact (List.nodup_cons.mp hnd).2
        rw [bump, if_neg hyx, bump_mem rest x hnd2 hx2, List.map_cons]
        congr 1
        simp [hyx]

theorem bumpNested_not_mem : ∀ (l : CasingTracker) (k nm : Tok), k ∉ l.map Prod.fst →
    bumpNested l k nm = l ++ [(k, [(nm, 1)])]
  | [], _, _, _ => rfl
  | (y, c) :: rest, k, nm, h => by
      have hyk : y ≠ k := fun hcon => h (by simp [hcon])
      rw [bumpNested, if_neg hyk, bumpNested_not_mem rest k nm (fun hc => h (by simp [hc]))]
      rfl

theorem bumpNested_mem : ∀ (l : CasingTracker) (k nm : Tok), (l.map Prod.fst).Nodup →
    k ∈ l.map Prod.fst →
    bumpNested l k nm = l.map (fun p => (p.1, if p.1 = k then bump p.2 nm else p.2))
  | [], k, _, _, h => by simp at h
  | (y, c) :: rest, k, nm, hnd, h => by
      by_cases hyk : y = k
      · subst hyk
        have hniy : y ∉ rest.map Prod.fst := by
          rw [List.map_cons] at hnd
          exact (List.nodup_cons.mp hnd).1
        have hmap : rest.map (fun p : Tok × Cnt => (p.1, if p.1 = y then bump p.2 nm else p.2)) =
            rest := by
          conv_rhs => rw [← List.map_id rest]
          apply List.map_congr_left
          intro p hp
          have hpy : p.1 ≠ y := fun hcon => hniy (hcon ▸ List.mem_map_of_mem Prod.fst hp)
          simp [hpy]
        rw [bumpNested, if_pos rfl, List.map_cons, hmap]
        simp
      · have hx2 : k ∈ rest.map Prod.fst := by
          rw [List.map_cons] at h
          rcases List.mem_cons.mp h with rfl | h2
          · exact absurd rfl hyk
          · exact h2
        have hnd2 : (rest.map Prod.fst).Nodup := by
          rw [List.map_cons] at hnd
          exact (List.nodup_cons.mp hnd).2
        rw [bumpNested, if_neg hyk, bumpNested_mem rest k nm hnd2 hx2, List.map_cons]
        congr 1
        simp [hyk]

theorem map_fst_map_fn {α : Type} (ks : List Tok) (G : Tok → α) :
    ((ks.map (fun k => (k, G k))).map Prod.fst) = ks := by
  rw [List.map_map]
  exact List.map_id ks

/-- The running `Counter` built by repeated `bump` holds exactly the
distinct elements in first-occurrence order, each with its total count. -/
theorem counterOf_char (names : List Tok) :
    names.foldl bump [] = (firstOccs names).map (fun x => (x, names.count x)) := by
  induction names using List.reverseRecOn with
  | nil => simp [firstOccs_nil]
  | append_singleton l a ih =>
    rw [List.foldl_append, List.foldl_cons, List.foldl_nil, ih,
      firstOccs_append_singleton]
    by_cases hmem : a ∈ l
    · have hk : a ∈ ((firstOccs l).map (fun x => (x, l.count x))).map Prod.fst := by
        rw [map_fst_map_fn]
        exact (mem_firstOccs l a).mpr hmem
      have hnd : (((firstOccs l).map (fun x => (x, l.count x))).map Prod.fst).Nodup := by
        rw [map_fst_map_fn]
        exact firstOccs_nodup l
      rw [bump_mem _ a hnd hk, List.map_map, if_pos hmem]
      apply List.map_congr_left
      intro x hx
      simp only [Function.comp_apply]
      by_cases hxa : x = a
      · subst hxa
        simp [List.count_append, List.count_cons]
      · have hax : a ≠ x := Ne.symm hxa
        simp [hxa, hax, List.count_append, List.count_cons]
    · have hk : a ∉ ((firstOccs l).map (fun x => (x, l.count x))).map Prod.fst := by
        rw [map_fst_map_fn]
        exact fun hc => hmem ((mem_firstOccs l a).mp hc)
      rw [bump_not_mem _ a hk, if_neg hmem, List.map_append]
      congr 1
      · apply List.map_congr_left
        intro x hx
        have hxl : x ∈ l := (mem_firstOccs l x).mp hx
        have hax : a ≠ x := fun hcon => hmem (hcon ▸ hxl)
        simp [List.count_append, List.count_cons, hax]
      · have hz : l.count a = 0 := List.count_eq_zero.mpr hmem
        simp [List.count_append, List.count_cons, hz]

/-- The casing tracker built by repeated `bumpNested` holds exactly the
distinct canonical keys in first-occurrence order, each carrying the counter
of the raw tokens that mapped to it. -/
theorem casingOf_char (ci : Bool) (toks : List Tok) :
    toks.foldl (fun cas n => bumpNested cas (key_for ci n) n) [] =
      (firstOccs (toks.map (key_for ci))).map
        (fun k => (k, (toks.filter (fun n => key_for ci n == k)).foldl bump [])) := by
  induction toks using List.reverseRecOn with
  | nil => simp [firstOccs_nil]
  | append_singleton l t ih =>
    rw [List.foldl_append, List.foldl_cons, List.foldl_nil, ih, List.map_append,
      List.map_singleton, firstOccs_append_singleton]
    by_cases hmem : key_for ci t ∈ l.map (key_for ci)
    · have hk : key_for ci t ∈ ((firstOccs (l.map (key_for ci))).map
          (fun k => (k, (l.filter (fun n => key_for ci n == k)).foldl bump []))).map
            Prod.fst := by
        rw [map_fst_map_fn]
        exact (mem_firstOccs _ _).mpr hmem
      have hnd : (((firstOccs (l.map (key_for ci))).map
          (fun k => (k, (l.filter (fun n => key_for ci n == k)).foldl bump []))).map
            Prod.fst).Nodup := by
        rw [map_fst_map_fn]
        exact firstOccs_nodup _
      rw [bumpNested_mem _ _ t hnd hk, List.map_map, if_pos hmem]
      apply List.map_congr_left
      intro k hk2
      simp only [Function.comp_apply]
      rw [List.filter_append]
      by_cases hkt : k = key_for ci t
      · rw [if_pos hkt]
        rw [show List.filter (fun n => key_for ci n == k) [t] = [t] from by simp [hkt]]
        rw [List.foldl_append, List.foldl_cons, List.foldl_nil]
      · rw [if_neg hkt]
        rw [show List.filter (fun n => key_for ci n == k) [t] = [] from by
          simp [Ne.symm hkt]]
        rw [List.append_nil]
    · have hk : key_for ci t ∉ ((firstOccs (l.map (key_for ci))).map
          (fun k => (k, (l.filter (fun n => key_for ci n == k)).foldl bump []))).map
            Prod.fst := by
        rw [map_fst_map_fn]
        exact fun hc => hmem ((mem_firstOccs _ _).mp hc)
      rw [bumpNested_not_mem _ _ t hk, if_neg hmem, List.map_append]
      congr 1
      · apply List.map_congr_left
        intro k hk2
        have hkl : k ∈ l.map (key_for ci) := (mem_firstOccs _ _).mp hk2
        have hkt : key_for ci t ≠ k := fun hcon => hmem (hcon ▸ hkl)
        rw [List.filter_append, show List.filter (fun n => key_for ci n == k) [t] = []
          from by simp [hkt], List.append_nil]
      · have hfilt : l.filter (fun n => key_for ci n == key_for ci t) = [] := by
          rw [List.filter_eq_nil_iff]
          intro n hn
          simp only [beq_iff_eq]
          exact fun hcon => hmem (hcon ▸ List.mem_map_of_mem (key_for ci) hn)
        rw [List.map_singleton, List.filter_append, hfilt, List.nil_append]
        simp [bump]

theorem extract_snd (ci : Bool) : ∀ (toks : List Tok) (st : Cnt × CasingTracker),
    (toks.foldl (extractStep ci) st).2 =
      toks.foldl (fun cas n => bumpNested cas (key_for ci n) n) st.2
  | [], _ => rfl
  | t :: toks, st => by
      rw [List.foldl_cons, List.foldl_cons]
      exact extract_snd ci toks _

theorem most_common1_firstOccs_spec (occs : List Tok) (lbl : Tok) (n : Nat)
    (h : most_common1 ((firstOccs occs).map (fun x => (x, occs.count x))) = some (lbl, n)) :
    lbl ∈ occs ∧ n = occs.count lbl ∧
    ∀ y ∈ occs, occs.count y ≤ occs.count lbl ∧
      (occs.count y = occs.count lbl → firstIdx lbl occs ≤ firstIdx y occs) := by
  obtain ⟨u, w, hew, hu, hw⟩ := most_common1_split _ lbl n h
  obtain ⟨l1, l2, hfo, hm1, hm2⟩ := List.map_eq_append_iff.mp hew
  cases l2 with
  | nil => simp at hm2
  | cons k l2' =>
    rw [List.map_cons] at hm2
    injection hm2 with hm3 hm4
    injection hm3 with hk1 hk2
    have hk1s : lbl = k := hk1.symm
    subst hk1s
    have hn : n = occs.count lbl := hk2.symm
    have hlblfo : lbl ∈ firstOccs occs := by
      rw [hfo]
      exact List.mem_append_right _ (by simp)
    have hlbl : lbl ∈ occs := (mem_firstOccs _ _).mp hlblfo
    refine ⟨hlbl, hn, ?_⟩
    intro y hy
    have hyfo : y ∈ firstOccs occs := (mem_firstOccs _ _).mpr hy
    have hymem : (y, occs.count y) ∈ (firstOccs occs).map (fun x => (x, occs.count x)) :=
      List.mem_map_of_mem _ hyfo
    rw [hew] at hymem
    have hcy : occs.count y ≤ occs.count lbl := by
      rcases List.mem_append.mp hymem with h1 | h2
      · have hlt : occs.count y < n := hu _ h1
        omega
      · rcases List.mem_cons.mp h2 with heq | h3
        · injection heq with e1 e2
          omega
        · have hle : occs.count y ≤ n := hw _ h3
          omega
    refine ⟨hcy, ?_⟩
    intro htie
    rcases List.mem_append.mp hymem with h1 | h2
    · have hlt : occs.count y < n := hu _ h1
      omega
    · rcases List.mem_cons.mp h2 with heq | h3
      · injection heq with e1 _
        rw [e1]
      · rw [← hm4] at h3
        obtain ⟨z, hz, hfz⟩ := List.mem_map.mp h3
        injection hfz with f1 _
        rw [f1] at hz
        have hpw := pairwise_firstIdx occs
        rw [hfo] at hpw
        have hsplit := (List.pairwise_append.mp hpw).2.1
        have hhead := (List.pairwise_cons.mp hsplit).1 y hz
        omega

theorem piuStep_upper : ∀ (parts : List Tok) (acc : List Tok × List Tok),
    (∀ u ∈ acc.2, ∃ t, u = upperStr t) →
    ∀ u ∈ (parts.foldl piuStep acc).2, ∃ t, u = upperStr t
  | [], _, hinv => hinv
  | p :: parts, acc, hinv => by
      rw [List.foldl_cons]
      apply piuStep_upper parts
      by_cases ht : (normalizeWsPy p).isEmpty
      · simpa [piuStep, ht] using hinv
      · by_cases hc : upperStr (normalizeWsPy p) ∈ acc.1
        · simpa [piuStep, ht, hc] using hinv
        · intro u hu
          have hu2 : u ∈ acc.2 ++ [upperStr (normalizeWsPy p)] := by
            simpa [piuStep, ht, hc] using hu
          rcases List.mem_append.mp hu2 with h1 | h2
          · exact hinv u h1
          · have heq : u = upperStr (normalizeWsPy p) := by simpa using h2
            exact ⟨normalizeWsPy p, heq⟩

theorem parse_items_to_upper_upper (v : Option Tok) (u : Tok)
    (hu : u ∈ parse_items_to_upper v) : ∃ t, u = upperStr t := by
  match v with
  | none => simp [parse_items_to_upper] at hu
  | some s =>
    rw [parse_items_to_upper] at hu
    by_cases hempty : (pyStrip s).isEmpty || (lowerStr (pyStrip s) == ("nan".toList))
    · rw [if_pos hempty] at hu
      simp at hu
    · rw [if_neg hempty] at hu
      exact piuStep_upper _ ([], []) (by simp) u hu

theorem addEntity_nodes_shape (articleId : Tok) (col : String) (st : GBuild) (item : Tok) :
    (addEntity articleId col st item).g.nodes = st.g.nodes ∨
    (addEntity articleId col st item).g.nodes = st.g.nodes ++ [(ENTITY_ID col item, item)] := by
  by_cases h1 : ENTITY_ID col item ∈ st.seenNodes
  · by_cases h2 : (articleId, ENTITY_ID col item) ∈ st.seenEdges
    · exact Or.inl (by simp [addEntity, h1, h2])
    · exact Or.inl (by simp [addEntity, h1, h2])
  · by_cases h2 : (articleId, ENTITY_ID col item) ∈ st.seenEdges
    · exact Or.inr (by simp [addEntity, h1, h2])
    · exact Or.inr (by simp [addEntity, h1, h2])

theorem foldl_addEntity_nodes (articleId : Tok) (col : String) :
    ∀ (items : List Tok) (st : GBuild),
    (∀ q ∈ st.g.nodes, (∃ a, q.1 = ARTICLE_ID a ∧ q.2 = a) ∨ ∃ t, q.2 = upperStr t) →
    (∀ i ∈ items, ∃ t, i = upperStr t) →
    ∀ q ∈ (items.foldl (addEntity articleId col) st).g.nodes,
      (∃ a, q.1 = ARTICLE_ID a ∧ q.2 = a) ∨ ∃ t, q.2 = upperStr t
  | [], _, hinv, _ => hinv
  | i :: items, st, hinv, hit => by
      rw [List.foldl_cons]
      apply foldl_addEntity_nodes articleId col items _ ?_
        (fun j hj => hit j (List.mem_cons_of_mem _ hj))
      intro q hq
      rcases addEntity_nodes_shape articleId col st i with hsh | hsh
      · rw [hsh] at hq
        exact hinv q hq
      · rw [hsh] at hq
        rcases List.mem_append.mp hq with h1 | h2
        · exact hinv q h1
        · have hq2 : q = (ENTITY_ID col i, i) := by simpa using h2
          subst hq2
          exact Or.inr (hit i (by simp))

theorem buildStep_nodes (col : String) (st : GBuild) (row : Row)
    (hinv : ∀ q ∈ st.g.nodes, (∃ a, q.1 = ARTICLE_ID a ∧ q.2 = a) ∨ ∃ t, q.2 = upperStr t) :
    ∀ q ∈ (buildStep col st row).g.nodes,
      (∃ a, q.1 = ARTICLE_ID a ∧ q.2 = a) ∨ ∃ t, q.2 = upperStr t := by
  rw [buildStep]
  by_cases h1 : (pyStrip (pyStr row.articleName)).isEmpty
  · simpa [h1] using hinv
  · by_cases h2 : (parse_items_to_upper (row.cells col)).isEmpty
    · simpa [h1, h2] using hinv
    · simp only [h1, h2, Bool.false_eq_true, if_false]
      apply foldl_addEntity_nodes
      · intro q hq
        by_cases h3 : st.seenNodes.contains (ARTICLE_ID (pyStrip (pyStr row.articleName)))
        · rw [if_pos h3] at hq
          exact hinv q hq
        · rw [if_neg h3] at hq
          simp only at hq
          rcases List.mem_append.mp hq with h4 | h5
          · exact hinv q h4
          · have hq2 : q = (ARTICLE_ID (pyStrip (pyStr row.articleName)),
                pyStrip (pyStr row.articleName)) := by simpa using h5
            subst hq2
            exact Or.inl ⟨pyStrip (pyStr row.articleName), rfl, rfl⟩
      · intro i hi
        exact parse_items_to_upper_upper (row.cells col) i hi

theorem build_graph_nodes_spec (rows : List Row) (col : String) :
    ∀ q ∈ (build_graph rows col).nodes,
      (∃ a, q.1 = ARTICLE_ID a ∧ q.2 = a) ∨ ∃ t, q.2 = upperStr t := by
  rw [build_graph]
  suffices h : ∀ (rs : List Row) (st : GBuild),
      (∀ q ∈ st.g.nodes, (∃ a, q.1 = ARTICLE_ID a ∧ q.2 = a) ∨ ∃ t, q.2 = upperStr t) →
      ∀ q ∈ (rs.foldl (buildStep col) st).g.nodes,
        (∃ a, q.1 = ARTICLE_ID a ∧ q.2 = a) ∨ ∃ t, q.2 = upperStr t from
    h rows ⟨[], [], ⟨[], []⟩⟩ (by simp)
  intro rs
  induction rs with
  | nil =>
    intro st hinv
    exact hinv
  | cons r rs ih =>
    intro st hinv
    rw [List.foldl_cons]
    exact ih _ (buildStep_nodes col st r hinv)

/-- Claim C4, counterexample to the claim as stated: in the Graph Builder
the display label of an entity node is the uppercased token, not the most
frequent original casing — for a single row whose Genes cell holds only the
casing `"tp53"`, the built node is labelled `"TP53"`, which is not the (sole,
hence most frequent) original casing `"tp53"`. -/
theorem c4_counterexample :
    (build_graph [⟨some ("Doc A".toList), fun _ => some ("tp53".toList)⟩] "Genes").nodes =
      [(ARTICLE_ID ("Doc A".toList), "Doc A".toList),
       (ENTITY_ID "Genes" ("TP53".toList), "TP53".toList)] ∧
    ("TP53".toList : Tok) ≠ ("tp53".toList) :=
  ⟨by decide, by decide⟩

/-- Claim C4 (amended: the most-frequent-casing rule holds only in the
Statistics Aggregator; the Graph Builder uppercases instead): (1) whenever
the Statistics Aggregator's `rep_map` assigns a display label to a canonical
key, that label is one of the tokens that mapped to the key, its occurrence
count is maximal among them, and any token tying that count first occurs no
earlier than the label (first-seen tie-break); (2) every node label in a
built graph is either a document node labelled by its article name or an
entity node labelled by the uppercased form of some token — never by a
casing-frequency choice. -/
theorem c4_display_labels :
    (∀ (ci : Bool) (series : List (Option Tok)) (k lbl : Tok),
      lookupA (rep_map_of (extract_items ci series).2) k = some lbl →
      lbl ∈ occsOf ci series k ∧
      ∀ y ∈ occsOf ci series k,
        (occsOf ci series k).count y ≤ (occsOf ci series k).count lbl ∧
        ((occsOf ci series k).count y = (occsOf ci series k).count lbl →
          firstIdx lbl (occsOf ci series k) ≤ firstIdx y (occsOf ci series k))) ∧
    (∀ (rows : List Row) (col : String) (q : Tok × Tok), q ∈ (build_graph rows col).nodes →
      (∃ a, q.1 = ARTICLE_ID a ∧ q.2 = a) ∨ ∃ t, q.2 = upperStr t) := by
  constructor
  · intro ci series k lbl hlk
    have hsnd : (extract_items ci series).2 =
        (firstOccs ((tokenStream series).map (key_for ci))).map
          (fun k2 => (k2, ((tokenStream series).filter
            (fun n => key_for ci n == k2)).foldl bump [])) := by
      rw [extract_items, extract_snd]
      exact casingOf_char ci (tokenStream series)
    rw [hsnd] at hlk
    have hrep : rep_map_of ((firstOccs ((tokenStream series).map (key_for ci))).map
        (fun k2 => (k2, ((tokenStream series).filter (fun n => key_for ci n == k2)).foldl
          bump []))) =
        (firstOccs ((tokenStream series).map (key_for ci))).map
          (fun k2 => (k2, repLabel k2 (((tokenStream series).filter
            (fun n => key_for ci n == k2)).foldl bump []))) := by
      rw [rep_map_of, List.map_map]
      rfl
    rw [hrep, lookupA_map_fn] at hlk
    by_cases hkmem : k ∈ firstOccs ((tokenStream series).map (key_for ci))
    case neg =>
      rw [if_neg hkmem] at hlk
      simp at hlk
    rw [if_pos hkmem] at hlk
    injection hlk with hlbl
    rw [counterOf_char] at hlbl
    cases hmc : most_common1 ((firstOccs ((tokenStream series).filter
        (fun n => key_for ci n == k))).map (fun x => (x, ((tokenStream series).filter
          (fun n => key_for ci n == k)).count x))) with
    | none =>
      rw [most_common1_eq_none] at hmc
      have hfoe : firstOccs ((tokenStream series).filter (fun n => key_for ci n == k)) = [] :=
        List.map_eq_nil_iff.mp hmc
      have hkks : k ∈ (tokenStream series).map (key_for ci) := (mem_firstOccs _ _).mp hkmem
      obtain ⟨tk, htk, hkey⟩ := List.mem_map.mp hkks
      have htkf : tk ∈ (tokenStream series).filter (fun n => key_for ci n == k) :=
        List.mem_filter.mpr ⟨htk, by simp [hkey]⟩
      have htkfo := (mem_firstOccs _ tk).mpr htkf
      rw [hfoe] at htkfo
      simp at htkfo
    | some p =>
      rcases p with ⟨x0, n0⟩
      rw [repLabel, hmc] at hlbl
      have hlbl2 : lbl = x0 := Eq.symm hlbl
      subst hlbl2
      have hspec := most_common1_firstOccs_spec _ lbl n0 hmc
      simp only [occsOf]
      exact ⟨hspec.1, hspec.2.2⟩
  · intro rows col q hq
    exact build_graph_nodes_spec rows col q hq

/-- Witness for C4's amended theorem, statistics side, at the spec's
canonicalization example: under case-insensitive mode the cell
`"TP53, tp53 ,Tp53"` yields one key `"tp53"` whose display label is the
first-seen casing `"TP53"` (all three casings tie at one occurrence). -/
theorem c4_witness :
    lookupA (rep_map_of (extract_items true [some ("TP53, tp53 ,Tp53".toList)]).2)
      ("tp53".toList) = some ("TP53".toList) ∧
    (("TP53".toList : Tok) ∈ occsOf true [some ("TP53, tp53 ,Tp53".toList)] ("tp53".toList) ∧
      ∀ y ∈ occsOf true [some ("TP53, tp53 ,Tp53".toList)] ("tp53".toList),
        (occsOf true [some ("TP53, tp53 ,Tp53".toList)] ("tp53".toList)).count y ≤
          (occsOf true [some ("TP53, tp53 ,Tp53".toList)] ("tp53".toList)).count
            ("TP53".toList) ∧
        ((occsOf true [some ("TP53, tp53 ,Tp53".toList)] ("tp53".toList)).count y =
            (occsOf true [some ("TP53, tp53 ,Tp53".toList)] ("tp53".toList)).count
              ("TP53".toList) →
          firstIdx ("TP53".toList)
              (occsOf true [some ("TP53, tp53 ,Tp53".toList)] ("tp53".toList)) ≤
            firstIdx y (occsOf true [some ("TP53, tp53 ,Tp53".toList)] ("tp53".toList)))) :=
  ⟨by decide,
   c4_display_labels.1 true [some ("TP53, tp53 ,Tp53".toList)] ("tp53".toList)
     ("TP53".toList) (by decide)⟩

end OVC
